import Mathlib

/-!
# golongfuncs: span extraction, line counting, TODO scanning and the walk

A shallow embedding of `internal/body.go` (`ParseTypes`, `calculateLines`,
`countTodos`, `countLines`) and of `internal/runner.go` (`analyzeFile`,
`NewVisitor`, `Visit`), together with the parts of the Go standard library
these functions call (`strings.Split`, `strings.TrimSpace`,
`strings.FieldsFunc`, `strings.ToUpper`, `strings.HasSuffix`, UTF-8 decoding,
`ast.Walk`).

Conventions of the embedding:

* a Go `string` is a list of bytes (`Str`), each byte a natural number below 256;
* `token.Pos` and `int` are unbounded integers (file offsets never get near 2^63);
* an expression that panics in Go (a slice expression out of range) yields `none`;
* `float64(n)` of an integer count is stored as the count itself (exact below 2^53);
* a result `(value, error)` is an `Except`; a call that does not return (a panic,
  `os.Exit`) is `none`.
-/

namespace GoLongFuncs

/-! ## Strings and slice expressions -/

/-- A Go string: a sequence of bytes. -/
abbrev Str := List Nat

/-- The bytes of an ASCII literal. -/
def ascii (s : String) : Str := s.data.map Char.toNat

/-- The slice expression `s[lo:hi]`; `none` when Go panics, that is unless
`0 ≤ lo ≤ hi ≤ len(s)`. -/
def slice (s : Str) (lo hi : Int) : Option Str :=
  if 0 ≤ lo ∧ lo ≤ hi ∧ hi ≤ (s.length : Int) then
    some ((s.drop lo.toNat).take (hi.toNat - lo.toNat))
  else none

/-- The slice expression `s[lo:]`; `none` unless `0 ≤ lo ≤ len(s)`. -/
def sliceFrom (s : Str) (lo : Int) : Option Str :=
  if 0 ≤ lo ∧ lo ≤ (s.length : Int) then some (s.drop lo.toNat) else none

/-! ## UTF-8 decoding (`unicode/utf8`) -/

/-- The rune `utf8.RuneError` (U+FFFD), produced for every malformed byte. -/
def RuneError : Nat := 0xFFFD

/-- A continuation byte, `locb ≤ b ≤ hicb`. -/
def isCont (b : Nat) : Bool := decide (0x80 ≤ b) && decide (b ≤ 0xBF)

/-- The rune of a two-byte sequence, `rune(s0&mask2)<<6 | rune(s1&maskx)`. -/
def rune2 (s0 s1 : Nat) : Nat := (s0 % 32) * 64 + s1 % 64

/-- The rune of a three-byte sequence. -/
def rune3 (s0 s1 s2 : Nat) : Nat := (s0 % 16) * 4096 + (s1 % 64) * 64 + s2 % 64

/-- The rune of a four-byte sequence. -/
def rune4 (s0 s1 s2 s3 : Nat) : Nat :=
  (s0 % 8) * 262144 + (s1 % 64) * 4096 + (s2 % 64) * 64 + s3 % 64

/-- The body of `utf8.DecodeRuneInString` on `n = len(s)` and the bytes
`s[0]`, `s[1]`, `s[2]`, `s[3]` (read as 0 where the string is shorter): the
first rune and its width. `sz` is the length the first byte announces and `lo`,
`hi` the range the `acceptRanges` table allows for the second byte. -/
def decodeCore (n s0 s1 s2 s3 : Nat) : Nat × Nat :=
  if n < 1 then (RuneError, 0)
  else if s0 < 0x80 then (s0, 1)
  else if s0 < 0xC2 ∨ 0xF4 < s0 then (RuneError, 1)
  else
    let sz := if s0 ≤ 0xDF then 2 else if s0 ≤ 0xEF then 3 else 4
    let lo := if s0 = 0xE0 then 0xA0 else if s0 = 0xF0 then 0x90 else 0x80
    let hi := if s0 = 0xED then 0x9F else if s0 = 0xF4 then 0x8F else 0xBF
    if n < sz then (RuneError, 1)
    else if s1 < lo ∨ hi < s1 then (RuneError, 1)
    else if sz ≤ 2 then (rune2 s0 s1, 2)
    else if s2 < 0x80 ∨ 0xBF < s2 then (RuneError, 1)
    else if sz ≤ 3 then (rune3 s0 s1 s2, 3)
    else if s3 < 0x80 ∨ 0xBF < s3 then (RuneError, 1)
    else (rune4 s0 s1 s2 s3, 4)

/-- `utf8.DecodeRuneInString`: the first rune of `s` and its width in bytes.
A malformed or truncated sequence decodes to `(RuneError, 1)`, the empty
string to `(RuneError, 0)`. -/
def decodeRune (s : Str) : Nat × Nat :=
  decodeCore s.length (s.getD 0 0) (s.getD 1 0) (s.getD 2 0) (s.getD 3 0)

/-- The iteration `for i, r := range s`: the runes of `s` in order, each with
the bytes it was decoded from. The first argument is the number of bytes still
to skip because they belong to the rune decoded last. -/
def runesFrom : Nat → Str → List (Nat × Str)
  | _, [] => []
  | 0, b :: t =>
    ((decodeRune (b :: t)).1, (b :: t).take (decodeRune (b :: t)).2) ::
      runesFrom ((decodeRune (b :: t)).2 - 1) t
  | k + 1, _ :: t => runesFrom k t

/-- The runes of a string, as `range s` and `[]rune(s)` produce them. -/
def runes (s : Str) : List (Nat × Str) := runesFrom 0 s

/-- The value of `len([]rune(s))`. -/
def runeCount (s : Str) : Nat := (runes s).length

/-- `utf8.RuneStart`: the byte is not a continuation byte. -/
def runeStart (b : Nat) : Bool := !isCont b

/-- The index at which `utf8.DecodeLastRuneInString` starts decoding: the
nearest rune-start byte among the last four bytes before the final one, or one
byte before that window (not below 0) when there is none. -/
def lastRuneStart (s : Str) : Nat :=
  let e := s.length
  if 2 ≤ e ∧ runeStart (s.getD (e - 2) 0) then e - 2
  else if 3 ≤ e ∧ runeStart (s.getD (e - 3) 0) then e - 3
  else if 4 ≤ e ∧ runeStart (s.getD (e - 4) 0) then e - 4
  else (e - 4) - 1

/-- `utf8.DecodeLastRuneInString`: the last rune of `s` and its width. -/
def decodeLastRune (s : Str) : Nat × Nat :=
  match s.getLast? with
  | none => (RuneError, 0)
  | some last =>
    if last < 0x80 then (last, 1)
    else
      let start := lastRuneStart s
      let d := decodeRune (s.drop start)
      if start + d.2 ≠ s.length then (RuneError, 1) else d

/-! ## `strings.TrimSpace` and `strings.Split` -/

/-- The `asciiSpace` table of package `strings`. -/
def asciiSpace (c : Nat) : Bool :=
  c == 9 || c == 10 || c == 11 || c == 12 || c == 13 || c == 32

/-- `unicode.IsSpace`. -/
def isSpace (r : Nat) : Bool :=
  if r ≤ 0xFF then
    r == 9 || r == 10 || r == 11 || r == 12 || r == 13 || r == 32 || r == 0x85 || r == 0xA0
  else
    r == 0x1680 || (decide (0x2000 ≤ r) && decide (r ≤ 0x200A)) || r == 0x2028 ||
      r == 0x2029 || r == 0x202F || r == 0x205F || r == 0x3000

/-- `strings.TrimLeftFunc(s, f)`: drop leading runes while `f` holds. The first
argument bounds the number of iterations; `trimLeftFunc` passes `len(s)`. -/
def trimLeftFuncAux (f : Nat → Bool) : Nat → Str → Str
  | 0, s => s
  | n + 1, s =>
    if s = [] then []
    else if f (decodeRune s).1 then trimLeftFuncAux f n (s.drop (decodeRune s).2)
    else s

/-- `strings.TrimLeftFunc`. -/
def trimLeftFunc (f : Nat → Bool) (s : Str) : Str := trimLeftFuncAux f s.length s

/-- `strings.TrimRightFunc(s, f)`: drop trailing runes, decoded backwards,
while `f` holds. The first argument bounds the number of iterations. -/
def trimRightFuncAux (f : Nat → Bool) : Nat → Str → Str
  | 0, s => s
  | n + 1, s =>
    if s = [] then []
    else if f (decodeLastRune s).1 then
      trimRightFuncAux f n (s.take (s.length - (decodeLastRune s).2))
    else s

/-- `strings.TrimRightFunc`. -/
def trimRightFunc (f : Nat → Bool) (s : Str) : Str := trimRightFuncAux f s.length s

/-- `strings.TrimFunc`. -/
def trimFunc (f : Nat → Bool) (s : Str) : Str := trimRightFunc f (trimLeftFunc f s)

/-- The second loop of `strings.TrimSpace`, on the reversed remainder
`s[start:stop]`: strip ASCII spaces from the end, handing over to
`TrimRightFunc` at the first non-ASCII byte. -/
def trimSpaceRight : List Nat → Str
  | [] => []
  | c :: rest =>
    if c ≥ 0x80 then trimRightFunc isSpace (c :: rest).reverse
    else if asciiSpace c then trimSpaceRight rest
    else (c :: rest).reverse

/-- `strings.TrimSpace`: the first loop strips ASCII spaces from the front,
handing over to `TrimFunc` at the first non-ASCII byte; then the second loop
runs on what is left. -/
def TrimSpace : Str → Str
  | [] => []
  | c :: rest =>
    if c ≥ 0x80 then trimFunc isSpace (c :: rest)
    else if asciiSpace c then TrimSpace rest
    else trimSpaceRight (c :: rest).reverse

/-- `strings.Split(s, "\n")`: the pieces of `s` between newline bytes; always
at least one piece. -/
def splitLines : Str → List Str
  | [] => [[]]
  | b :: rest =>
    if b = 10 then [] :: splitLines rest
    else
      match splitLines rest with
      | [] => [[b]]
      | l :: ls => (b :: l) :: ls

/-! ## `countLines` (body.go lines 87-103) -/

/-- The map `ignore` after the first loop of `countLines`, as the list of its keys. -/
def ignoreSet (ignoreLines : List Str) : List Str :=
  ignoreLines.foldl (fun m il => TrimSpace il :: m) []

/-- The function `countLines(str, ignoreLines...)`. -/
def countLines (str : Str) (ignoreLines : List Str) : Nat :=
  (splitLines str).foldl
    (fun count line => if (ignoreSet ignoreLines).contains (TrimSpace line) then count else count + 1)
    0

/-! ## `countTodos` (body.go lines 59-85) -/

/-- The Unicode tables of the Go standard library that are not spelled out
here: `unicode.IsLetter` on code points from 0x80 on, and the result of
`strings.Map(unicode.ToUpper, s)`, which `strings.ToUpper` returns for a string
with a non-ASCII byte. -/
structure UnicodeTables where
  isLetter : Nat → Bool
  mapUpper : Str → Str

/-- `unicode.IsLetter`. -/
def IsLetter (T : UnicodeTables) (r : Nat) : Bool :=
  if r < 0x80 then (decide (65 ≤ r) && decide (r ≤ 90)) || (decide (97 ≤ r) && decide (r ≤ 122))
  else T.isLetter r

/-- An ASCII lower-case letter. -/
def isLowerByte (c : Nat) : Bool := decide (97 ≤ c) && decide (c ≤ 122)

/-- `strings.ToUpper`: an ASCII-only string without lower-case letters is
returned as it is, an ASCII-only string has `'a'-'A'` subtracted from its
lower-case letters, any other string goes through `strings.Map`. -/
def ToUpper (T : UnicodeTables) (s : Str) : Str :=
  if s.all (fun c => decide (c < 0x80)) then
    if s.any isLowerByte then s.map (fun c => if isLowerByte c then c - 32 else c) else s
  else T.mapUpper s

/-- The loop of `strings.FieldsFunc` over the decoded runes. The second
argument is `none` while `start < 0` and otherwise the text `s[start:end]` of
the field being read. -/
def fieldsGo (f : Nat → Bool) : List (Nat × Str) → Option Str → List Str
  | [], none => []
  | [], some w => [w]
  | (r, bs) :: rest, none => if f r then fieldsGo f rest none else fieldsGo f rest (some bs)
  | (r, bs) :: rest, some w =>
    if f r then w :: fieldsGo f rest none else fieldsGo f rest (some (w ++ bs))

/-- `strings.FieldsFunc(s, f)`. -/
def FieldsFunc (s : Str) (f : Nat → Bool) : List Str := fieldsGo f (runes s) none

/-- The keys of the map `todoTags`. -/
def todoTags : List Str :=
  [ascii "HACK", ascii "TODO", ascii "NOTE", ascii "FIXME", ascii "ASAP", ascii "ISSUE",
    ascii "BUG", ascii "WTF"]

/-- The body of the inner loop of `countTodos` for one word. -/
def todoStep (T : UnicodeTables) (acc : Nat × Nat) (word : Str) : Nat × Nat :=
  (if todoTags.contains word then acc.1 + 1 else acc.1,
   if todoTags.contains (ToUpper T word) then acc.2 + 1 else acc.2)

/-- The function `countTodos(strs...)`: `(caseSensitive, caseInsensitive)`. -/
def countTodos (T : UnicodeTables) (strs : List Str) : Nat × Nat :=
  strs.foldl
    (fun acc str => (FieldsFunc str (fun r => !IsLetter T r)).foldl (todoStep T) acc)
    (0, 0)

/-! ## Syntax-tree positions -/

/-- The part of `*ast.CommentGroup` that `calculateLines` reads: `Pos()` and `End()`. -/
structure CommentGroup where
  Pos : Int
  End : Int
deriving DecidableEq, Repr

/-- The part of `*ast.FuncDecl` that `calculateLines` reads: `Pos()` and `End()`. -/
structure FuncDecl where
  Pos : Int
  End : Int
deriving DecidableEq, Repr

/-! ## The span loop of `calculateLines` (body.go lines 37-47) -/

/-- The test of line 43: the comment group lies entirely inside the function span. -/
def contained (fn : FuncDecl) (c : CommentGroup) : Bool :=
  decide (c.Pos ≥ fn.Pos) && decide (c.End ≤ fn.End)

/-- One iteration of the loop (lines 42-46) on the pair
`(withoutComments, onlyComments)`. -/
def spliceStep (offset : Int) (fn : FuncDecl) (contents : Str) (c : CommentGroup)
    (st : Str × Str) : Option (Str × Str) :=
  if contained fn c then
    (slice st.1 0 (c.Pos - fn.Pos + 1)).bind fun left =>
    (sliceFrom st.1 (c.End - fn.Pos + 1)).bind fun right =>
    (slice contents (c.Pos - offset) (c.End - offset)).bind fun text =>
    some (left ++ right, text ++ [10] ++ st.2)
  else some st

/-- The loop `for i := len(comments) - 1; i >= 0; i--` started from
`(funcBody, "")`: the groups that follow `c` in the list are processed before `c`. -/
def spliceLoop (offset : Int) (fn : FuncDecl) (contents funcBody : Str) :
    List CommentGroup → Option (Str × Str)
  | [] => some (funcBody, [])
  | c :: rest =>
    (spliceLoop offset fn contents funcBody rest).bind (spliceStep offset fn contents c)

/-- Lines 37-47 of `calculateLines`: the three texts
`(funcBody, withoutComments, onlyComments)`. -/
def extractSpans (offset : Int) (fn : FuncDecl) (contents : Str)
    (comments : List CommentGroup) : Option (Str × Str × Str) :=
  (slice contents (fn.Pos - offset - 1) (fn.End - offset)).bind fun funcBody =>
  (spliceLoop offset fn contents funcBody comments).bind fun st =>
  some (funcBody, st.1, st.2)

/-! ## The record of one function -/

/-- The type `FuncMeasurement`: a measurement name, a Go string. -/
abbrev FuncMeasurement := Str

/-- Modelled from the spec: the measurement constants are declared outside the
analysed files; each is given the name the specification lists for it. -/
def Lines : FuncMeasurement := ascii "Lines"

/-- Modelled from the spec: the constant `TotalLines`. -/
def TotalLines : FuncMeasurement := ascii "TotalLines"

/-- Modelled from the spec: the constant `Len`. -/
def Len : FuncMeasurement := ascii "Len"

/-- Modelled from the spec: the constant `TotalLen`. -/
def TotalLen : FuncMeasurement := ascii "TotalLen"

/-- Modelled from the spec: the constant `Comments`. -/
def Comments : FuncMeasurement := ascii "Comments"

/-- Modelled from the spec: the constant `CommentLines`. -/
def CommentLines : FuncMeasurement := ascii "CommentLines"

/-- Modelled from the spec: the constant `Todos`. -/
def Todos : FuncMeasurement := ascii "Todos"

/-- Modelled from the spec: the constant `TodosCaseinsensitive`. -/
def TodosCaseinsensitive : FuncMeasurement := ascii "TodosCaseInsensitive"

/-- Modelled from the spec: the record `FunctionStats` is declared outside the
analysed files. It has the identity fields name, location and receiver and a
mapping from measurement names to values, kept here as an association list
with at most one entry per name. -/
structure FunctionStats where
  Name : Str
  Location : Str
  Receiver : Str
  stats : List (FuncMeasurement × Nat)
deriving DecidableEq, Repr

/-- Modelled from the spec: the method `FunctionStats.Set`; writing a
measurement twice overwrites, the last write wins. -/
def FunctionStats.Set (s : FunctionStats) (ty : FuncMeasurement) (value : Nat) : FunctionStats :=
  { s with stats := (ty, value) :: s.stats.filter (fun e => e.1 != ty) }

/-- Modelled from the spec: the constant `Complexity`. -/
def Complexity : FuncMeasurement := ascii "Complexity"

/-- Modelled from the spec: the constant `Nesting`. -/
def Nesting : FuncMeasurement := ascii "Nesting"

/-- Modelled from the spec: the constant `Variables`. -/
def Variables : FuncMeasurement := ascii "Variables"

/-- Modelled from the spec: the closed set of measurement names; a name is
valid when it is exactly (case-sensitively) one of these. -/
def measurementKinds : List FuncMeasurement :=
  [Lines, TotalLines, Len, TotalLen, Comments, CommentLines, Todos, TodosCaseinsensitive,
    Complexity, Nesting, Variables]

/-- Modelled from the spec: the error of `FunctionStats.Get`; it identifies the
name that is not a measurement. -/
structure UnknownMeasurement where
  name : FuncMeasurement
deriving DecidableEq, Repr

/-- Modelled from the spec: the method `FunctionStats.Get`, declared outside
the analysed files, with its result `(float64, error)`. A name outside the
measurement set is an error that names it. A valid name reads the value written
for it; `ParseTypes` validates names by reading them from a record with nothing
written, so a valid name never written reads as the zero value without error. -/
def FunctionStats.Get (s : FunctionStats) (ty : FuncMeasurement) :
    Except UnknownMeasurement Nat :=
  if measurementKinds.contains ty then
    .ok (((s.stats.find? (fun e => e.1 == ty)).map Prod.snd).getD 0)
  else .error ⟨ty⟩

/-! ## `calculateLines` (body.go lines 36-57) -/

/-- Lines 40 and 49-56 of `calculateLines`: the measurements written to the
record once the three texts are known. -/
def setMeasurements (T : UnicodeTables) (stats : FunctionStats) (comments : List CommentGroup)
    (funcDocs funcBody withoutComments onlyComments : Str) : FunctionStats :=
  let stats := stats.Set Comments comments.length
  let todos := countTodos T [funcDocs, onlyComments]
  let stats := stats.Set Todos todos.1
  let stats := stats.Set TodosCaseinsensitive todos.2
  let stats := stats.Set Len (runeCount withoutComments)
  let stats := stats.Set TotalLen (runeCount funcBody)
  let stats := stats.Set TotalLines (countLines funcBody [])
  let stats := stats.Set Lines (countLines withoutComments [ascii "", ascii "\x7d"])
  stats.Set CommentLines (countLines onlyComments [ascii "", ascii "//", ascii "/*", ascii "*/"])

/-- The function `calculateLines`; `none` when a slice expression panics. -/
def calculateLines (T : UnicodeTables) (stats : FunctionStats) (offset : Int) (fn : FuncDecl)
    (contents : Str) (comments : List CommentGroup) (funcDocs : Str) : Option FunctionStats :=
  (extractSpans offset fn contents comments).map fun sp =>
    setMeasurements T stats comments funcDocs sp.1 sp.2.1 sp.2.2

/-! ## `ParseTypes` (body.go lines 20-34) -/

/-- `strings.Split(s, sep)` for a separator of one byte: the pieces of `s`
between occurrences of the byte; always at least one piece. -/
def splitByte (sep : Nat) : Str → List Str
  | [] => [[]]
  | b :: rest =>
    if b = sep then [] :: splitByte sep rest
    else
      match splitByte sep rest with
      | [] => [[b]]
      | l :: ls => (b :: l) :: ls

/-- The zero value of `FunctionStats`, as `var fs FunctionStats` declares it. -/
def zeroStats : FunctionStats := ⟨[], [], [], []⟩

/-- The loop of `ParseTypes` over the parts not yet read, with the list `res`
built so far: the first part whose trimmed text `fs.Get` rejects ends the
function with that error and no list. -/
def parseTypesLoop (fs : FunctionStats) :
    List Str → List FuncMeasurement → Except UnknownMeasurement (List FuncMeasurement)
  | [], res => .ok res
  | p :: parts, res =>
    match fs.Get (TrimSpace p) with
    | .error err => .error err
    | .ok _ => parseTypesLoop fs parts (res ++ [TrimSpace p])

/-- The function `ParseTypes(types)`. -/
def ParseTypes (types : Str) : Except UnknownMeasurement (List FuncMeasurement) :=
  parseTypesLoop zeroStats (splitByte 44 types) []

/-! ## Syntax tree, parameters and visitor (runner.go) -/

/-- The part of `ast.Expr` that `Visit` tells apart: an identifier, a star
expression, or any other expression (given by its source text). -/
inductive Expr where
  | Ident (Name : Str)
  | StarExpr (X : Expr)
  | Other (src : Str)
deriving DecidableEq, Repr

/-- The part of `*ast.Field` that `Visit` reads: the type expression. -/
structure Field where
  Typ : Expr
deriving DecidableEq, Repr

/-- The function declaration `*ast.FuncDecl` with everything `Visit` reads: its
span, the identifier `Name.Name`, the receiver list `Recv.List` (`none` when
`Recv` is nil) and the doc comment, given by the text `Doc.Text()` returns
(`none` when `Doc` is nil). -/
structure FuncDeclNode extends FuncDecl where
  Name : Str
  Recv : Option (List Field)
  Doc : Option Str
deriving DecidableEq, Repr

/-- A node of the syntax tree as `Visit` sees it: a function declaration or a
node of any other type, each with its child nodes in source order. -/
inductive Node where
  | FuncDecl (fn : FuncDeclNode) (children : List Node)
  | Other (children : List Node)

/-- The part of `*token.FileSet` the visitor uses: `Position(p).String()` and
the name of the file that holds a position (`File(p).Name()`, `none` when
`File(p)` is nil). -/
structure FileSet where
  Position : Int → Str
  File : Int → Option Str

/-- The part of `*ast.File` the visitor uses: `Pos()`, which is the position of
the `package` keyword, the comment groups of the file, and the child nodes. -/
structure File where
  Package : Int
  Comments : List CommentGroup
  Children : List Node

/-- The type `CmdParams` is declared outside the analysed files; these are the
fields the analysed files read. A compiled regular expression is given by its
`MatchString` function, `none` standing for a nil pointer. -/
structure CmdParams where
  Types : List FuncMeasurement
  IncludeTests : Bool
  IncludeVendor : Bool
  Ignore : Option (Str → Bool)
  IgnoreFuncs : Option (Str → Bool)

/-- Everything the walk takes from outside the analysed files: the Unicode
tables, the text `fmt` prints with `%v` for an expression that is not an
identifier, the numbers the three calculators declared elsewhere compute, the
parser (`none` for a parse error) and the file system (`none` for a read
error). -/
structure Env where
  unicode : UnicodeTables
  sprint : Expr → Str
  complexityOf : FuncDeclNode → Nat
  nestingOf : Int → FuncDeclNode → Str → Nat
  variablesOf : FuncDeclNode → Nat
  ParseFile : Str → Option (FileSet × File)
  ReadFile : Str → Option Str

/-- The type `Visitor`. -/
structure Visitor where
  file : File
  contents : Str
  fset : FileSet
  offset : Int
  stats : List FunctionStats
  params : CmdParams

/-- The text `fmt.Sprintf("%v", e)`: an identifier prints as its name
(`(*ast.Ident).String`). -/
def sprintV (E : Env) : Expr → Str
  | .Ident name => name
  | e => E.sprint e

/-- Modelled from the spec: `newFunctionStats(name, location)` is declared
outside the analysed files; it builds a record with the name and the location
string, no receiver and no measurement. -/
def newFunctionStats (name location : Str) : FunctionStats := ⟨name, location, [], []⟩

/-- Modelled from the spec: `calculateComplexity` is declared outside the
analysed files; it writes the measurement `Complexity`. -/
def calculateComplexity (E : Env) (stats : FunctionStats) (fn : FuncDeclNode) : FunctionStats :=
  stats.Set Complexity (E.complexityOf fn)

/-- Modelled from the spec: `calculateNesting` is declared outside the analysed
files; it writes the measurement `Nesting`. -/
def calculateNesting (E : Env) (stats : FunctionStats) (offset : Int) (fn : FuncDeclNode)
    (contents : Str) : FunctionStats :=
  stats.Set Nesting (E.nestingOf offset fn contents)

/-- Modelled from the spec: `calculateVariables` is declared outside the
analysed files; it writes the measurement `Variables`. -/
def calculateVariables (E : Env) (stats : FunctionStats) (fn : FuncDeclNode) : FunctionStats :=
  stats.Set Variables (E.variablesOf fn)

/-- Lines 155-162 of `Visit`: the receiver text is set from the type of the
first receiver, with a leading `*` for a star expression. -/
def setReceiver (E : Env) (stats : FunctionStats) (fn : FuncDeclNode) : FunctionStats :=
  match fn.Recv with
  | some (field :: _) =>
    match field.Typ with
    | .StarExpr x => { stats with Receiver := ascii "*" ++ sprintV E x }
    | ty => { stats with Receiver := sprintV E ty }
  | _ => stats

/-- Lines 153-170 of `Visit`: the record built for a function declaration that
is not ignored; `none` when `calculateLines` panics. -/
def visitFuncDecl (E : Env) (v : Visitor) (fn : FuncDeclNode) : Option FunctionStats :=
  let stats := newFunctionStats fn.Name (v.fset.Position fn.Pos)
  let stats := setReceiver E stats fn
  let functionDocs := match fn.Doc with
    | some text => text
    | none => []
  (calculateLines E.unicode stats v.offset fn.toFuncDecl v.contents v.file.Comments
    functionDocs).map fun stats =>
      calculateVariables E
        (calculateNesting E (calculateComplexity E stats fn) v.offset fn v.contents) fn

/-- The method `(*Visitor).Visit`: the visitor after the call (`Visit` always
returns its receiver); `none` when the call panics. The argument `none` is the
nil node. -/
def Visitor.Visit (E : Env) (v : Visitor) : Option Node → Option Visitor
  | none => some v
  | some (.Other _) => some v
  | some (.FuncDecl fn _) =>
    match v.params.IgnoreFuncs with
    | some re =>
      if re fn.Name then some v
      else (visitFuncDecl E v fn).map fun st => { v with stats := v.stats ++ [st] }
    | none => (visitFuncDecl E v fn).map fun st => { v with stats := v.stats ++ [st] }

mutual
/-- The function `ast.Walk(v, node)`: `Visit` on the node, the walk of its
children in order, then `Visit(nil)`. -/
def Walk (E : Env) : Visitor → Node → Option Visitor
  | v, .FuncDecl fn children =>
    (v.Visit E (some (.FuncDecl fn children))).bind fun v =>
    (walkList E v children).bind fun v => v.Visit E none
  | v, .Other children =>
    (v.Visit E (some (.Other children))).bind fun v =>
    (walkList E v children).bind fun v => v.Visit E none
/-- The walk of a list of child nodes, one after the other. -/
def walkList (E : Env) : Visitor → List Node → Option Visitor
  | v, [] => some v
  | v, n :: rest => (Walk E v n).bind fun v => walkList E v rest
end

/-- The node of the file itself, which is not a function declaration. -/
def File.node (f : File) : Node := .Other f.Children

/-- The function `NewVisitor`; `none` when the file set has no file for the
position (a nil dereference) or the file cannot be read (`PrintUsage` exits). -/
def NewVisitor (E : Env) (params : CmdParams) (file : File) (fset : FileSet)
    (stats : List FunctionStats) : Option Visitor :=
  match fset.File file.Package with
  | none => none
  | some name =>
    match E.ReadFile name with
    | none => none
    | some bytes =>
      some { file := file, contents := bytes, fset := fset, offset := file.Package,
             stats := stats, params := params }

/-- `strings.HasSuffix(s, suffix)`. -/
def HasSuffix (s suffix : Str) : Bool :=
  decide (suffix.length ≤ s.length) && (s.drop (s.length - suffix.length) == suffix)

/-- How a call of `analyzeFile` ends: it returns before the parser is called
(lines 46, 51, 57), it returns after a parse error (line 64), it returns the
records of the walk (line 71), or it does not return (a panic or exit in
`NewVisitor` or in the walk). -/
inductive FileOutcome where
  | skipped
  | parseFailed
  | analysed (stats : List FunctionStats)
  | aborted
deriving DecidableEq, Repr

/-- The list a call of `analyzeFile` returns; `none` when it does not return. -/
def FileOutcome.result : FileOutcome → Option (List FunctionStats)
  | .skipped => some []
  | .parseFailed => some []
  | .analysed stats => some stats
  | .aborted => none

/-- Lines 60-71 of `analyzeFile`: parse the file, build the visitor, walk. -/
def parseAndWalk (E : Env) (params : CmdParams) (fname : Str) : FileOutcome :=
  match E.ParseFile fname with
  | none => .parseFailed
  | some (fset, f) =>
    match (NewVisitor E params f fset []).bind fun v => Walk E v f.node with
    | none => .aborted
    | some v => .analysed v.stats

/-- The control flow of `analyzeFile`. -/
def analyzeFileOutcome (E : Env) (params : CmdParams) (fname : Str) : FileOutcome :=
  if !HasSuffix fname (ascii ".go") then .skipped
  else if (match params.Ignore with
      | some re => re fname
      | none => false) then .skipped
  else if HasSuffix fname (ascii "_test.go") && !params.IncludeTests then .skipped
  else parseAndWalk E params fname

/-- The function `analyzeFile`: the list it returns, `none` when it does not return. -/
def analyzeFile (E : Env) (params : CmdParams) (fname : Str) : Option (List FunctionStats) :=
  (analyzeFileOutcome E params fname).result

/-! ## Reference notions used to state the properties -/

/-- The accepted positions of `calculateLines`: the slice expression for
`funcBody` is within range. -/
def InBounds (offset : Int) (fn : FuncDecl) (contents : Str) : Prop :=
  0 ≤ fn.Pos - offset - 1 ∧ fn.Pos - offset - 1 ≤ fn.End - offset ∧
    fn.End - offset ≤ (contents.length : Int)

/-- Comment groups in source order with pairwise non-overlapping spans: no
group ends before it begins, and each group ends no later than every later
group begins. -/
def InSourceOrder (cs : List CommentGroup) : Prop :=
  (∀ c ∈ cs, c.Pos ≤ c.End) ∧ cs.Pairwise (fun c d => c.End ≤ d.Pos)

/-- Byte `j` of `funcBody` sits at file position `fn.Pos - 1 + j`; it is
covered when that position lies in a comment group contained in the function
span. -/
def covered (fn : FuncDecl) (cs : List CommentGroup) (j : Nat) : Bool :=
  cs.any fun c => contained fn c && decide (c.Pos ≤ fn.Pos - 1 + (j : Int)) &&
    decide (fn.Pos - 1 + (j : Int) < c.End)

/-- Copy a text front to back, leaving out the bytes whose index is covered;
the second argument is the index of the first byte of the text. -/
def cutFrom (cov : Nat → Bool) : Nat → Str → Str
  | _, [] => []
  | i, b :: t => if cov i then cutFrom cov (i + 1) t else b :: cutFrom cov (i + 1) t

/-- The forward cut-list reference: `funcBody` with exactly the bytes of the
contained comment groups deleted and every other byte kept in its order. -/
def forwardCut (fn : FuncDecl) (cs : List CommentGroup) (funcBody : Str) : Str :=
  cutFrom (covered fn cs) 0 funcBody

/-- The text `contents[c.Pos-offset : c.End-offset]` of a comment group. -/
def commentText (offset : Int) (contents : Str) (c : CommentGroup) : Str :=
  (contents.drop (c.Pos - offset).toNat).take ((c.End - offset).toNat - (c.Pos - offset).toNat)

/-- The texts of the contained comment groups, first group first, each
followed by one newline. -/
def commentTexts (offset : Int) (fn : FuncDecl) (contents : Str) : List CommentGroup → Str
  | [] => []
  | c :: rest =>
    if contained fn c then
      commentText offset contents c ++ [10] ++ commentTexts offset fn contents rest
    else commentTexts offset fn contents rest

/-- Put the text of every contained comment group back into a text, first
group first, each at the index its first byte has in `funcBody`. -/
def reinsert (offset : Int) (fn : FuncDecl) (contents : Str) : List CommentGroup → Str → Str
  | [], w => w
  | c :: rest, w =>
    if contained fn c then
      reinsert offset fn contents rest
        (w.take (c.Pos - (fn.Pos - 1)).toNat ++ commentText offset contents c ++
          w.drop (c.Pos - (fn.Pos - 1)).toNat)
    else reinsert offset fn contents rest w

/-- The line count the specification describes: the number of newline-separated
lines whose whitespace-trimmed content is not one of the given strings. -/
def linesNotIn (str : Str) (ignore : List Str) : Nat :=
  (splitLines str).countP fun line => !ignore.contains (TrimSpace line)

/-- The maximal runs of letter runes of a string, as byte strings: the runes
are split at every non-letter, the empty pieces between two separators are
dropped, and each remaining run is turned back into its bytes. -/
def letterRuns (T : UnicodeTables) (s : Str) : List Str :=
  (((runes s).splitOnP fun x => !IsLetter T x.1).filter fun run => !run.isEmpty).map
    fun run => (run.map Prod.snd).flatten

/-- The number of maximal letter runs of a string that are one of the tags. -/
def tagRuns (T : UnicodeTables) (s : Str) : Nat :=
  (letterRuns T s).countP fun w => todoTags.contains w

/-- The number of maximal letter runs of a string whose upper-cased form is one of the tags. -/
def tagRunsUpper (T : UnicodeTables) (s : Str) : Nat :=
  (letterRuns T s).countP fun w => todoTags.contains (ToUpper T w)

/-- The text `contents[lo:hi]` for indices within range. -/
def textBetween (contents : Str) (lo hi : Int) : Str :=
  (contents.drop lo.toNat).take (hi.toNat - lo.toNat)

/-- Whether a text consists of complete, well-formed UTF-8 sequences only, once
the given number of bytes, belonging to a sequence already checked, is skipped. -/
def wellFormedFrom : Nat → Str → Bool
  | k, [] => k == 0
  | 0, b :: t =>
    decide (decodeRune (b :: t) ≠ (RuneError, 1)) &&
      wellFormedFrom ((decodeRune (b :: t)).2 - 1) t
  | k + 1, _ :: t => wellFormedFrom k t

/-- The test `utf8.ValidString`: every rune of the text decodes without error. -/
def ValidUTF8 (s : Str) : Prop := wellFormedFrom 0 s = true

/-- A contained comment group begins and ends on a character boundary of
`funcBody`: the text of `funcBody` before the group and the text of the group
are both well-formed UTF-8. -/
def OnRuneBoundaries (offset : Int) (fn : FuncDecl) (contents : Str) (c : CommentGroup) : Prop :=
  ValidUTF8 (textBetween contents (fn.Pos - offset - 1) (c.Pos - offset)) ∧
    ValidUTF8 (commentText offset contents c)

/-- A file that starts with a comment line, so that `package` is not its first
byte; the function holds two four-byte characters followed by a comment. -/
def emojiContents : Str :=
  ascii "// v1\npackage p\nfunc f() \x7b\n\t_ = \"" ++
    [0xF0, 0x9F, 0x98, 0x80, 0xF0, 0x9F, 0x98, 0x80] ++ ascii "\"//\n\treturn\n\x7d\n"

/-- The function declaration of that file. -/
def emojiFunc : FuncDecl := ⟨17, 55⟩

/-- The comment groups of that file: the header line and the comment in the body. -/
def emojiComments : List CommentGroup := [⟨1, 6⟩, ⟨43, 45⟩]

/-- An empty record for the function of that file. -/
def emojiStats : FunctionStats := ⟨ascii "f", ascii "p.go:3:1", [], []⟩

/-- A sample file: a function with two comment groups inside its body, a doc
comment before it and a comment after it. -/
def sampleContents : Str :=
  ascii "package p\n\n// f does x.\nfunc f() \x7b\n\t/* TODO: a */\n\tx()\n\t// bc\n\x7d\n\n// tail\n"

/-- The function declaration of the sample file (positions count from 1). -/
def sampleFunc : FuncDecl := ⟨25, 64⟩

/-- The four comment groups of the sample file. -/
def sampleComments : List CommentGroup := [⟨12, 24⟩, ⟨37, 50⟩, ⟨57, 62⟩, ⟨66, 73⟩]

/-- Unicode tables that know no letter beyond ASCII and leave non-ASCII text
unchanged; the examples do not depend on them. -/
def asciiTables : UnicodeTables := ⟨fun _ => false, fun s => s⟩

/-- An empty record for the function of the sample file. -/
def sampleStats : FunctionStats := ⟨ascii "f", ascii "p.go:4:1", [], []⟩

/-- The record `calculateLines` returns for the sample file. -/
def sampleResult : FunctionStats :=
  setMeasurements asciiTables sampleStats sampleComments (ascii "f does x.\n")
    (ascii "\nfunc f() \x7b\n\t/* TODO: a */\n\tx()\n\t// bc\n\x7d")
    (ascii "\nfunc f() \x7b\n\t\n\tx()\n\t\n\x7d") (ascii "/* TODO: a */\n// bc\n")

/-- A measurement name is valid when `FunctionStats.Get` accepts it on a record
with nothing written, which is the test `ParseTypes` makes. -/
def accepted (ty : FuncMeasurement) : Bool :=
  match zeroStats.Get ty with
  | .ok _ => true
  | .error _ => false

/-- Whether the ignore-by-name filter is configured and matches the name of the
function. -/
def nameIgnored (params : CmdParams) (fn : FuncDeclNode) : Bool :=
  match params.IgnoreFuncs with
  | some re => re fn.Name
  | none => false

mutual
/-- The function declarations of a tree in source order (a node before its
children, children from first to last). -/
def funcDecls : Node → List FuncDeclNode
  | .FuncDecl fn children => fn :: funcDeclsList children
  | .Other children => funcDeclsList children
/-- The function declarations of a list of trees in source order. -/
def funcDeclsList : List Node → List FuncDeclNode
  | [] => []
  | n :: rest => funcDecls n ++ funcDeclsList rest
end

/-- One record per function declaration of the list, in the order of the list;
`none` when building one of them panics. -/
def recordsOf (E : Env) (v : Visitor) : List FuncDeclNode → Option (List FunctionStats)
  | [] => some []
  | fn :: rest =>
    (visitFuncDecl E v fn).bind fun st => (recordsOf E v rest).map fun sts => st :: sts

/-- The file `b_test.go`: a comment and three functions, the last one a method
with a pointer receiver. -/
def walkContents : Str :=
  ascii "package p\n\n// note\n\nfunc a() \x7b\x7d\n\nfunc skip() \x7b\x7d\n\nfunc (p *T) Foo() \x7b\x7d\n"

/-- The declaration `func a() {}` of that file. -/
def declA : FuncDeclNode :=
  { Pos := 21, End := 32, Name := ascii "a", Recv := none, Doc := none }

/-- The declaration `func skip() {}` of that file. -/
def declSkip : FuncDeclNode :=
  { Pos := 34, End := 48, Name := ascii "skip", Recv := none, Doc := none }

/-- The declaration `func (p *T) Foo() {}` of that file. -/
def declFoo : FuncDeclNode :=
  { Pos := 50, End := 70, Name := ascii "Foo",
    Recv := some [⟨.StarExpr (.Ident (ascii "T"))⟩], Doc := none }

/-- The syntax tree of that file: the package name, then the three
declarations, each with some child nodes. -/
def walkFile : File :=
  { Package := 1, Comments := [⟨12, 19⟩],
    Children := [.Other [], .FuncDecl declA [.Other [], .Other [.Other []]],
      .FuncDecl declSkip [.Other []], .FuncDecl declFoo [.Other [.Other []], .Other []]] }

/-- The file set after parsing that file: positions are not rendered, the one
file is found for every position. -/
def walkFileSet : FileSet :=
  { Position := fun _ => ascii "b_test.go", File := fun _ => some (ascii "b_test.go") }

/-- A directory with `a.go`, which has no function, and `b_test.go`; every
other file fails to parse. The calculators declared elsewhere return fixed
numbers. -/
def sampleEnv : Env :=
  { unicode := asciiTables, sprint := fun _ => ascii "?", complexityOf := fun _ => 1,
    nestingOf := fun _ _ _ => 0, variablesOf := fun _ => 0,
    ParseFile := fun name =>
      if name = ascii "b_test.go" then some (walkFileSet, walkFile)
      else if name = ascii "a.go" then
        some ({ Position := fun _ => ascii "a.go", File := fun _ => some (ascii "a.go") },
          { Package := 1, Comments := [], Children := [.Other []] })
      else none,
    ReadFile := fun name =>
      if name = ascii "b_test.go" then some walkContents
      else if name = ascii "a.go" then some (ascii "package p\n")
      else none }

/-- Parameters without filters; test files are left out. -/
def plainParams : CmdParams :=
  { Types := [Lines], IncludeTests := false, IncludeVendor := false, Ignore := none,
    IgnoreFuncs := none }

/-- Parameters that include test files and ignore the functions named `skip`. -/
def skipParams : CmdParams :=
  { Types := [Lines], IncludeTests := true, IncludeVendor := false, Ignore := none,
    IgnoreFuncs := some fun name => name == ascii "skip" }

/-- The visitor `NewVisitor` builds for `b_test.go` with the parameters `skipParams`. -/
def walkVisitor : Visitor :=
  { file := walkFile, contents := walkContents, fset := walkFileSet, offset := 1, stats := [],
    params := skipParams }

/-- The declaration `func f()` of the file that starts with a comment line. -/
def emojiDecl : FuncDeclNode :=
  { Pos := 17, End := 55, Name := ascii "f", Recv := none, Doc := none }

/-- The syntax tree of that file as the parser returns it: `Pos()` is 7, the
position of the `package` keyword after the six bytes of the comment line. -/
def emojiFile : File :=
  { Package := 7, Comments := emojiComments,
    Children := [.Other [], .FuncDecl emojiDecl [.Other [], .Other [.Other []]]] }

/-- The file set after parsing that file. -/
def emojiFileSet : FileSet :=
  { Position := fun _ => ascii "p.go:3:1", File := fun _ => some (ascii "p.go") }

/-- A directory that holds that file as `p.go`. -/
def emojiEnv : Env :=
  { unicode := asciiTables, sprint := fun _ => ascii "?", complexityOf := fun _ => 1,
    nestingOf := fun _ _ _ => 0, variablesOf := fun _ => 0,
    ParseFile := fun name =>
      if name = ascii "p.go" then some (emojiFileSet, emojiFile) else none,
    ReadFile := fun name => if name = ascii "p.go" then some emojiContents else none }

/-! ## Lemmas: slice expressions -/

theorem slice_eq_some {s : Str} {lo hi : Int} (h₀ : 0 ≤ lo) (h₁ : lo ≤ hi)
    (h₂ : hi ≤ (s.length : Int)) :
    slice s lo hi = some ((s.drop lo.toNat).take (hi.toNat - lo.toNat)) := by
  simp [slice, h₀, h₁, h₂]

theorem sliceFrom_eq_some {s : Str} {lo : Int} (h₀ : 0 ≤ lo) (h₂ : lo ≤ (s.length : Int)) :
    sliceFrom s lo = some (s.drop lo.toNat) := by
  simp [sliceFrom, h₀, h₂]

theorem slice_some_iff {s r : Str} {lo hi : Int} :
    slice s lo hi = some r ↔
      (0 ≤ lo ∧ lo ≤ hi ∧ hi ≤ (s.length : Int)) ∧
        r = (s.drop lo.toNat).take (hi.toNat - lo.toNat) := by
  unfold slice
  split <;> simp_all [eq_comm]

theorem sliceFrom_some_iff {s r : Str} {lo : Int} :
    sliceFrom s lo = some r ↔ (0 ≤ lo ∧ lo ≤ (s.length : Int)) ∧ r = s.drop lo.toNat := by
  unfold sliceFrom
  split <;> simp_all [eq_comm]

theorem slice_length {s r : Str} {lo hi : Int} (h : slice s lo hi = some r) :
    (r.length : Int) = hi - lo := by
  obtain ⟨⟨h0, h1, h2⟩, rfl⟩ := slice_some_iff.1 h
  simp only [List.length_take, List.length_drop]
  omega

/-! ## Lemmas: the forward cut -/

theorem cutFrom_cons (cov : Nat → Bool) (i b : Nat) (t : Str) :
    cutFrom cov i (b :: t) =
      if cov i then cutFrom cov (i + 1) t else b :: cutFrom cov (i + 1) t := rfl

theorem cutFrom_append (cov : Nat → Bool) (l₁ l₂ : Str) (i : Nat) :
    cutFrom cov i (l₁ ++ l₂) = cutFrom cov i l₁ ++ cutFrom cov (i + l₁.length) l₂ := by
  induction l₁ generalizing i with
  | nil => simp [cutFrom]
  | cons b t ih =>
    have e : i + 1 + t.length = i + (t.length + 1) := by omega
    rw [List.cons_append, cutFrom_cons, cutFrom_cons, ih (i + 1), List.length_cons, e]
    split <;> simp

theorem cutFrom_none (cov : Nat → Bool) (l : Str) (i : Nat)
    (h : ∀ j, i ≤ j → j < i + l.length → cov j = false) : cutFrom cov i l = l := by
  induction l generalizing i with
  | nil => simp [cutFrom]
  | cons b t ih =>
    have h0 : cov i = false := h i (le_refl _) (by simp)
    simp only [cutFrom, h0]
    rw [ih (i + 1) (fun j h1 h2 => h j (by omega) (by simp; omega))]
    simp

theorem cutFrom_all (cov : Nat → Bool) (l : Str) (i : Nat)
    (h : ∀ j, i ≤ j → j < i + l.length → cov j = true) : cutFrom cov i l = [] := by
  induction l generalizing i with
  | nil => simp [cutFrom]
  | cons b t ih =>
    have h0 : cov i = true := h i (le_refl _) (by simp)
    simp only [cutFrom, h0]
    rw [ih (i + 1) (fun j h1 h2 => h j (by omega) (by simp; omega))]
    simp

theorem cutFrom_congr (cov cov' : Nat → Bool) (l : Str) (i : Nat)
    (h : ∀ j, i ≤ j → j < i + l.length → cov j = cov' j) :
    cutFrom cov i l = cutFrom cov' i l := by
  induction l generalizing i with
  | nil => simp [cutFrom]
  | cons b t ih =>
    have h0 : cov i = cov' i := h i (le_refl _) (by simp)
    simp only [cutFrom, h0]
    rw [ih (i + 1) (fun j h1 h2 => h j (by omega) (by simp; omega))]

theorem covered_cons (fn : FuncDecl) (c : CommentGroup) (cs : List CommentGroup) (j : Nat) :
    covered fn (c :: cs) j =
      ((contained fn c && decide (c.Pos ≤ fn.Pos - 1 + (j : Int)) &&
        decide (fn.Pos - 1 + (j : Int) < c.End)) || covered fn cs j) := by
  simp [covered]

theorem covered_false_of_lt (fn : FuncDecl) (cs : List CommentGroup) (p : Int)
    (h : ∀ d ∈ cs, p ≤ d.Pos) (j : Nat) (hj : fn.Pos - 1 + (j : Int) < p) :
    covered fn cs j = false := by
  simp only [covered, List.any_eq_false]
  intro d hd
  have := h d hd
  simp only [Bool.and_eq_true, decide_eq_true_eq, not_and, not_lt]
  intro h1
  omega

theorem contained_iff (fn : FuncDecl) (c : CommentGroup) :
    contained fn c = true ↔ fn.Pos ≤ c.Pos ∧ c.End ≤ fn.End := by
  simp [contained]

theorem forwardCut_nil (fn : FuncDecl) (body : Str) : forwardCut fn [] body = body :=
  cutFrom_none _ _ _ (by intro j _ _; simp [covered])

theorem forwardCut_cons_of_not_contained (fn : FuncDecl) (c : CommentGroup)
    (rest : List CommentGroup) (body : Str) (h : contained fn c = false) :
    forwardCut fn (c :: rest) body = forwardCut fn rest body := by
  unfold forwardCut
  apply cutFrom_congr
  intro j _ _
  rw [covered_cons, h]
  simp

/-- The bytes of the body before position `p` are kept when every group starts at `p` or later. -/
theorem forwardCut_untouched (fn : FuncDecl) (rest : List CommentGroup) (body : Str) (p : Int)
    (hord : ∀ d ∈ rest, p ≤ d.Pos) (n : Nat) (hn : fn.Pos - 1 + (n : Int) ≤ p)
    (hlen : n ≤ body.length) :
    forwardCut fn rest body = body.take n ++ cutFrom (covered fn rest) n (body.drop n) := by
  unfold forwardCut
  conv_lhs => rw [← List.take_append_drop n body]
  rw [cutFrom_append, cutFrom_none]
  · simp only [List.length_take, Nat.zero_add]
    congr 2
    omega
  · intro j _ hj
    simp only [List.length_take, Nat.zero_add] at hj
    exact covered_false_of_lt fn rest p hord j (by omega)

/-- Cutting a contained group `c` that precedes all of `rest`: the body up to the
start of `c`, then the cut of what follows the end of `c`. -/
theorem forwardCut_cons_of_contained (fn : FuncDecl) (c : CommentGroup)
    (rest : List CommentGroup) (body : Str) (hcon : contained fn c = true)
    (hc : c.Pos ≤ c.End) (hord : ∀ d ∈ rest, c.End ≤ d.Pos)
    (hlen : (body.length : Int) = fn.End - fn.Pos + 1) :
    forwardCut fn (c :: rest) body =
      body.take (c.Pos - fn.Pos + 1).toNat ++
        cutFrom (covered fn rest) (c.End - fn.Pos + 1).toNat
          (body.drop (c.End - fn.Pos + 1).toNat) := by
  obtain ⟨hp, he⟩ := (contained_iff fn c).1 hcon
  unfold forwardCut
  conv_lhs => rw [← List.take_append_drop (c.End - fn.Pos + 1).toNat body]
  conv_lhs =>
    rw [← List.take_append_drop (c.Pos - fn.Pos + 1).toNat
      (body.take (c.End - fn.Pos + 1).toNat)]
  rw [cutFrom_append, cutFrom_append, cutFrom_none, cutFrom_all]
  · simp only [List.length_append, List.length_take, List.length_drop, Nat.zero_add,
      List.append_nil, List.take_take]
    congr 1
    · congr 1
      omega
    · have key : ∀ n, n = (c.End - fn.Pos + 1).toNat →
          cutFrom (covered fn (c :: rest)) n (body.drop (c.End - fn.Pos + 1).toNat) =
            cutFrom (covered fn rest) (c.End - fn.Pos + 1).toNat
              (body.drop (c.End - fn.Pos + 1).toNat) := by
        intro n hn
        subst hn
        apply cutFrom_congr
        intro j hj _
        rw [covered_cons]
        have : decide (fn.Pos - 1 + (j : Int) < c.End) = false := by
          simp only [decide_eq_false_iff_not, not_lt]
          omega
        simp [this]
      exact key _ (by omega)
  · intro j hj1 hj2
    simp only [List.length_take, List.length_drop, Nat.zero_add] at hj1 hj2
    rw [covered_cons, hcon]
    have e1 : decide (c.Pos ≤ fn.Pos - 1 + (j : Int)) = true := by
      simp only [decide_eq_true_eq]
      omega
    have e2 : decide (fn.Pos - 1 + (j : Int) < c.End) = true := by
      simp only [decide_eq_true_eq]
      omega
    simp [e1, e2]
  · intro j _ hj2
    simp only [List.length_take, Nat.zero_add] at hj2
    rw [covered_cons]
    have e1 : decide (c.Pos ≤ fn.Pos - 1 + (j : Int)) = false := by
      simp only [decide_eq_false_iff_not, not_le]
      omega
    rw [covered_false_of_lt fn rest c.End hord j (by omega)]
    simp [e1]

/-! ## Lemmas: the span loop on source-ordered lists -/

theorem inSourceOrder_cons {c : CommentGroup} {rest : List CommentGroup}
    (hs : InSourceOrder (c :: rest)) :
    c.Pos ≤ c.End ∧ (∀ d ∈ rest, c.End ≤ d.Pos) ∧ InSourceOrder rest :=
  ⟨hs.1 c (List.mem_cons_self _ _), (List.pairwise_cons.1 hs.2).1,
    fun d hd => hs.1 d (List.mem_cons_of_mem _ hd), (List.pairwise_cons.1 hs.2).2⟩

/-- On a source-ordered list the back-to-front loop succeeds and computes the
forward cut and the comment texts. -/
theorem spliceLoop_sorted (offset : Int) (fn : FuncDecl) (contents body : Str)
    (hbody : slice contents (fn.Pos - offset - 1) (fn.End - offset) = some body)
    (cs : List CommentGroup) (hs : InSourceOrder cs) :
    spliceLoop offset fn contents body cs =
      some (forwardCut fn cs body, commentTexts offset fn contents cs) := by
  have hlen := slice_length hbody
  obtain ⟨⟨hb0, hb1, hb2⟩, -⟩ := slice_some_iff.1 hbody
  induction cs with
  | nil => simp only [spliceLoop, forwardCut_nil, commentTexts]
  | cons c rest ih =>
    obtain ⟨hc, hord, hs'⟩ := inSourceOrder_cons hs
    rw [spliceLoop, ih hs']
    simp only [Option.some_bind, spliceStep]
    by_cases hcon : contained fn c = true
    · obtain ⟨hp, he⟩ := (contained_iff fn c).1 hcon
      have hW := forwardCut_untouched fn rest body c.End hord (c.End - fn.Pos + 1).toNat
        (by omega) (by omega)
      have hlenW : (c.End - fn.Pos + 1).toNat ≤ (forwardCut fn rest body).length := by
        rw [hW, List.length_append, List.length_take]
        omega
      have h1 : slice (forwardCut fn rest body) 0 (c.Pos - fn.Pos + 1) =
          some (body.take (c.Pos - fn.Pos + 1).toNat) := by
        rw [slice_eq_some (le_refl _) (by omega) (by omega)]
        simp only [Int.toNat_zero, List.drop_zero, Nat.sub_zero, Option.some.injEq]
        rw [hW, List.take_append_of_le_length (by rw [List.length_take]; omega),
          List.take_take]
        congr 1
        omega
      have h2 : sliceFrom (forwardCut fn rest body) (c.End - fn.Pos + 1) =
          some (cutFrom (covered fn rest) (c.End - fn.Pos + 1).toNat
            (body.drop (c.End - fn.Pos + 1).toNat)) := by
        rw [sliceFrom_eq_some (by omega) (by omega)]
        simp only [Option.some.injEq]
        rw [hW, List.drop_append_of_le_length (by rw [List.length_take]; omega),
          List.drop_of_length_le (by rw [List.length_take]; omega)]
        simp
      have h3 : slice contents (c.Pos - offset) (c.End - offset) =
          some (commentText offset contents c) := by
        rw [slice_eq_some (by omega) (by omega) (by omega)]
        rfl
      have h4 := forwardCut_cons_of_contained fn c rest body hcon hc hord (by omega)
      simp only [hcon, ↓reduceIte, h1, h2, h3, h4, Option.some_bind, commentTexts]
    · simp only [Bool.not_eq_true] at hcon
      simp only [hcon, Bool.false_eq_true, ↓reduceIte, commentTexts,
        forwardCut_cons_of_not_contained fn c rest body hcon]

/-- On accepted, source-ordered input `extractSpans` succeeds with the three
texts of the reference. -/
theorem extractSpans_sorted (offset : Int) (fn : FuncDecl) (contents : Str)
    (comments : List CommentGroup) (hb : InBounds offset fn contents)
    (hs : InSourceOrder comments) :
    ∃ funcBody, slice contents (fn.Pos - offset - 1) (fn.End - offset) = some funcBody ∧
      extractSpans offset fn contents comments =
        some (funcBody, forwardCut fn comments funcBody,
          commentTexts offset fn contents comments) := by
  obtain ⟨h0, h1, h2⟩ := hb
  refine ⟨_, slice_eq_some h0 h1 h2, ?_⟩
  unfold extractSpans
  rw [slice_eq_some h0 h1 h2]
  simp only [Option.some_bind]
  rw [spliceLoop_sorted offset fn contents _ (slice_eq_some h0 h1 h2) comments hs]
  rfl

/-! ## Lemmas: what every successful run of the loop satisfies -/

theorem spliceStep_of_not_contained {offset : Int} {fn : FuncDecl} {contents : Str}
    {c : CommentGroup} {st : Str × Str} (hcon : contained fn c = false) :
    spliceStep offset fn contents c st = some st := by
  simp [spliceStep, hcon]

theorem spliceStep_some {offset : Int} {fn : FuncDecl} {contents : Str} {c : CommentGroup}
    {st st' : Str × Str} (h : spliceStep offset fn contents c st = some st')
    (hcon : contained fn c = true) :
    (0 ≤ c.Pos - fn.Pos + 1 ∧ c.Pos - fn.Pos + 1 ≤ (st.1.length : Int) ∧
      0 ≤ c.End - fn.Pos + 1 ∧ c.End - fn.Pos + 1 ≤ (st.1.length : Int) ∧
      0 ≤ c.Pos - offset ∧ c.Pos ≤ c.End ∧ c.End - offset ≤ (contents.length : Int)) ∧
    st' = (st.1.take (c.Pos - fn.Pos + 1).toNat ++ st.1.drop (c.End - fn.Pos + 1).toNat,
      commentText offset contents c ++ [10] ++ st.2) := by
  simp only [spliceStep, hcon, ↓reduceIte] at h
  obtain ⟨left, hl, h⟩ := Option.bind_eq_some.1 h
  obtain ⟨right, hr, h⟩ := Option.bind_eq_some.1 h
  obtain ⟨text, ht, h⟩ := Option.bind_eq_some.1 h
  obtain ⟨⟨-, l1, l2⟩, rfl⟩ := slice_some_iff.1 hl
  obtain ⟨⟨r1, r2⟩, rfl⟩ := sliceFrom_some_iff.1 hr
  obtain ⟨⟨t1, t2, t3⟩, rfl⟩ := slice_some_iff.1 ht
  simp only [Option.some.injEq] at h
  subst h
  refine ⟨⟨l1, l2, r1, r2, t1, by omega, t3⟩, ?_⟩
  simp [commentText]

theorem extractSpans_eq_some_iff {offset : Int} {fn : FuncDecl} {contents : Str}
    {comments : List CommentGroup} {funcBody w o : Str} :
    extractSpans offset fn contents comments = some (funcBody, w, o) ↔
      slice contents (fn.Pos - offset - 1) (fn.End - offset) = some funcBody ∧
        spliceLoop offset fn contents funcBody comments = some (w, o) := by
  unfold extractSpans
  constructor
  · intro h
    obtain ⟨fb, hfb, h⟩ := Option.bind_eq_some.1 h
    obtain ⟨st, hst, h⟩ := Option.bind_eq_some.1 h
    simp only [Option.some.injEq, Prod.mk.injEq] at h
    obtain ⟨rfl, rfl, rfl⟩ := h
    exact ⟨hfb, hst⟩
  · rintro ⟨h1, h2⟩
    simp [h1, h2]

/-- The comment text of a successful run is the text of the contained groups in list order. -/
theorem spliceLoop_onlyComments (offset : Int) (fn : FuncDecl) (contents body : Str)
    (cs : List CommentGroup) (st : Str × Str)
    (h : spliceLoop offset fn contents body cs = some st) :
    st.2 = commentTexts offset fn contents cs := by
  induction cs generalizing st with
  | nil =>
    simp only [spliceLoop, Option.some.injEq] at h
    subst h
    rfl
  | cons c rest ih =>
    rw [spliceLoop] at h
    obtain ⟨st₀, h₀, h₁⟩ := Option.bind_eq_some.1 h
    have := ih st₀ h₀
    by_cases hcon : contained fn c = true
    · obtain ⟨-, rfl⟩ := spliceStep_some h₁ hcon
      simp only [commentTexts, hcon, ↓reduceIte, this]
    · simp only [Bool.not_eq_true] at hcon
      rw [spliceStep_of_not_contained hcon] at h₁
      simp only [Option.some.injEq] at h₁
      subst h₁
      simp only [commentTexts, hcon, Bool.false_eq_true, ↓reduceIte, this]

/-- The code text of a successful run is the body with some bytes left out. -/
theorem spliceLoop_sublist (offset : Int) (fn : FuncDecl) (contents body : Str)
    (cs : List CommentGroup) (st : Str × Str)
    (h : spliceLoop offset fn contents body cs = some st) :
    st.1.Sublist body := by
  induction cs generalizing st with
  | nil =>
    simp only [spliceLoop, Option.some.injEq] at h
    subst h
    exact List.Sublist.refl _
  | cons c rest ih =>
    rw [spliceLoop] at h
    obtain ⟨st₀, h₀, h₁⟩ := Option.bind_eq_some.1 h
    have hsub := ih st₀ h₀
    by_cases hcon : contained fn c = true
    · obtain ⟨⟨a0, a1, b0, b1, -, hc, -⟩, rfl⟩ := spliceStep_some h₁ hcon
      refine List.Sublist.trans ?_ hsub
      have e : (c.End - fn.Pos + 1).toNat =
          (c.Pos - fn.Pos + 1).toNat + ((c.End - fn.Pos + 1).toNat - (c.Pos - fn.Pos + 1).toNat) := by
        omega
      conv_rhs => rw [← List.take_append_drop (c.Pos - fn.Pos + 1).toNat st₀.1]
      refine List.Sublist.append (List.Sublist.refl _) ?_
      show (List.drop (c.End - fn.Pos + 1).toNat st₀.1).Sublist _
      rw [e, ← List.drop_drop]
      exact List.drop_sublist _ _
    · simp only [Bool.not_eq_true] at hcon
      rw [spliceStep_of_not_contained hcon] at h₁
      simp only [Option.some.injEq] at h₁
      subst h₁
      exact hsub

/-- No byte is lost or duplicated by a successful run: the two texts together
hold the bytes of the body plus one newline per contained group. -/
theorem spliceLoop_length (offset : Int) (fn : FuncDecl) (contents body : Str)
    (cs : List CommentGroup) (st : Str × Str)
    (h : spliceLoop offset fn contents body cs = some st) :
    body.length + cs.countP (contained fn) = st.1.length + st.2.length := by
  induction cs generalizing st with
  | nil =>
    simp only [spliceLoop, Option.some.injEq] at h
    subst h
    simp
  | cons c rest ih =>
    rw [spliceLoop] at h
    obtain ⟨st₀, h₀, h₁⟩ := Option.bind_eq_some.1 h
    have hlen := ih st₀ h₀
    by_cases hcon : contained fn c = true
    · obtain ⟨⟨a0, a1, b0, b1, t0, hc, t1⟩, rfl⟩ := spliceStep_some h₁ hcon
      rw [List.countP_cons_of_pos _ _ hcon]
      simp only [commentText, List.length_append, List.length_take, List.length_drop,
        List.length_cons, List.length_nil]
      omega
    · rw [List.countP_cons_of_neg _ _ hcon]
      simp only [Bool.not_eq_true] at hcon
      rw [spliceStep_of_not_contained hcon] at h₁
      simp only [Option.some.injEq] at h₁
      subst h₁
      exact hlen

/-- The text of a contained group, read from the file, is the text at its place in the body. -/
theorem commentText_eq_body (offset : Int) (fn : FuncDecl) (contents body : Str)
    (hbody : slice contents (fn.Pos - offset - 1) (fn.End - offset) = some body)
    (c : CommentGroup) (hcon : contained fn c = true) (hc : c.Pos ≤ c.End) :
    commentText offset contents c =
      (body.drop (c.Pos - fn.Pos + 1).toNat).take
        ((c.End - fn.Pos + 1).toNat - (c.Pos - fn.Pos + 1).toNat) := by
  obtain ⟨hp, he⟩ := (contained_iff fn c).1 hcon
  obtain ⟨⟨hb0, hb1, hb2⟩, rfl⟩ := slice_some_iff.1 hbody
  unfold commentText
  rw [List.drop_take, List.drop_drop, List.take_take]
  congr 1
  · omega
  · congr 1
    omega

/-- Putting the comment texts back into the forward cut gives the body again. -/
theorem reinsert_forwardCut (offset : Int) (fn : FuncDecl) (contents body : Str)
    (hbody : slice contents (fn.Pos - offset - 1) (fn.End - offset) = some body)
    (cs : List CommentGroup) (hs : InSourceOrder cs) :
    reinsert offset fn contents cs (forwardCut fn cs body) = body := by
  have hlen := slice_length hbody
  obtain ⟨⟨hb0, hb1, hb2⟩, -⟩ := slice_some_iff.1 hbody
  induction cs with
  | nil => simp only [reinsert, forwardCut_nil]
  | cons c rest ih =>
    obtain ⟨hc, hord, hs'⟩ := inSourceOrder_cons hs
    by_cases hcon : contained fn c = true
    · obtain ⟨hp, he⟩ := (contained_iff fn c).1 hcon
      have hW := forwardCut_untouched fn rest body c.End hord (c.End - fn.Pos + 1).toNat
        (by omega) (by omega)
      have h4 := forwardCut_cons_of_contained fn c rest body hcon hc hord (by omega)
      have ea : (c.Pos - (fn.Pos - 1)).toNat = (c.Pos - fn.Pos + 1).toNat := by omega
      have hl : (body.take (c.Pos - fn.Pos + 1).toNat).length = (c.Pos - fn.Pos + 1).toNat := by
        rw [List.length_take]
        omega
      simp only [reinsert, hcon, ↓reduceIte, ea]
      rw [h4, List.take_left' hl, List.drop_left' hl,
        commentText_eq_body offset fn contents body hbody c hcon hc]
      have hmid : body.take (c.Pos - fn.Pos + 1).toNat ++
          (body.drop (c.Pos - fn.Pos + 1).toNat).take
            ((c.End - fn.Pos + 1).toNat - (c.Pos - fn.Pos + 1).toNat) =
          body.take (c.End - fn.Pos + 1).toNat := by
        have e : (c.End - fn.Pos + 1).toNat = (c.Pos - fn.Pos + 1).toNat +
            ((c.End - fn.Pos + 1).toNat - (c.Pos - fn.Pos + 1).toNat) := by omega
        conv_rhs => rw [e, List.take_add]
      rw [hmid, ← hW]
      exact ih hs'
    · simp only [Bool.not_eq_true] at hcon
      simp only [reinsert, hcon, Bool.false_eq_true, ↓reduceIte,
        forwardCut_cons_of_not_contained fn c rest body hcon]
      exact ih hs'

/-! ## Span extraction: the claims -/

/-- C1: on accepted positions and a comment list in source order with pairwise
non-overlapping spans, `calculateLines` computes its three texts, and the
`withoutComments` text built by the back-to-front splices is the forward cut of
`funcBody`: exactly the bytes lying inside a contained comment group are
deleted, every other byte is kept in its order. -/
theorem withoutComments_eq_forwardCut (offset : Int) (fn : FuncDecl) (contents : Str)
    (comments : List CommentGroup) (hb : InBounds offset fn contents)
    (hs : InSourceOrder comments) :
    ∃ funcBody onlyComments,
      extractSpans offset fn contents comments =
        some (funcBody, forwardCut fn comments funcBody, onlyComments) := by
  obtain ⟨funcBody, -, h⟩ := extractSpans_sorted offset fn contents comments hb hs
  exact ⟨funcBody, _, h⟩

/-- Witness for C1 on the sample file. -/
theorem withoutComments_eq_forwardCut_witness :
    InBounds 1 sampleFunc sampleContents ∧ InSourceOrder sampleComments ∧
      ∃ funcBody onlyComments,
        extractSpans 1 sampleFunc sampleContents sampleComments =
          some (funcBody, forwardCut sampleFunc sampleComments funcBody, onlyComments) :=
  ⟨by unfold InBounds; decide, by unfold InSourceOrder; decide,
    withoutComments_eq_forwardCut 1 sampleFunc sampleContents sampleComments
      (by unfold InBounds; decide) (by unfold InSourceOrder; decide)⟩

/-- C2: whenever `calculateLines` computes its three texts, `onlyComments` is
the concatenation, first group first, of the text
`contents[c.Pos-offset : c.End-offset]` of every contained comment group, each
followed by one newline, and nothing else; and on accepted positions with the
comment list in source order it does compute them. -/
theorem onlyComments_eq_commentTexts (offset : Int) (fn : FuncDecl) (contents : Str)
    (comments : List CommentGroup) :
    (∀ funcBody withoutComments onlyComments,
      extractSpans offset fn contents comments = some (funcBody, withoutComments, onlyComments) →
        onlyComments = commentTexts offset fn contents comments) ∧
    (InBounds offset fn contents → InSourceOrder comments →
      (extractSpans offset fn contents comments).isSome = true) := by
  constructor
  · intro funcBody w o h
    obtain ⟨-, h2⟩ := extractSpans_eq_some_iff.1 h
    exact spliceLoop_onlyComments offset fn contents funcBody comments (w, o) h2
  · intro hb hs
    obtain ⟨funcBody, -, h⟩ := extractSpans_sorted offset fn contents comments hb hs
    simp [h]

/-- Witness for C2 on the sample file: the two comment groups of the body, in order. -/
theorem onlyComments_eq_commentTexts_witness :
    extractSpans 1 sampleFunc sampleContents sampleComments =
        some (ascii "\nfunc f() \x7b\n\t/* TODO: a */\n\tx()\n\t// bc\n\x7d",
          ascii "\nfunc f() \x7b\n\t\n\tx()\n\t\n\x7d", ascii "/* TODO: a */\n// bc\n") ∧
      ascii "/* TODO: a */\n// bc\n" = commentTexts 1 sampleFunc sampleContents sampleComments :=
  ⟨by decide,
    (onlyComments_eq_commentTexts 1 sampleFunc sampleContents sampleComments).1
      (ascii "\nfunc f() \x7b\n\t/* TODO: a */\n\tx()\n\t// bc\n\x7d")
      (ascii "\nfunc f() \x7b\n\t\n\tx()\n\t\n\x7d") (ascii "/* TODO: a */\n// bc\n") (by decide)⟩

/-- C3: on accepted positions and a comment list in source order with pairwise
non-overlapping spans, putting the text of each contained comment group back
into `withoutComments` at its original offset gives `funcBody` again, and the
byte lengths satisfy `len(funcBody) + k = len(withoutComments) + len(onlyComments)`
with `k` the number of contained groups. -/
theorem reinsert_withoutComments (offset : Int) (fn : FuncDecl) (contents : Str)
    (comments : List CommentGroup) (hb : InBounds offset fn contents)
    (hs : InSourceOrder comments) :
    ∃ funcBody withoutComments onlyComments,
      extractSpans offset fn contents comments = some (funcBody, withoutComments, onlyComments) ∧
      reinsert offset fn contents comments withoutComments = funcBody ∧
      funcBody.length + comments.countP (contained fn) =
        withoutComments.length + onlyComments.length := by
  obtain ⟨funcBody, hbody, h⟩ := extractSpans_sorted offset fn contents comments hb hs
  refine ⟨funcBody, _, _, h, reinsert_forwardCut offset fn contents funcBody hbody comments hs, ?_⟩
  exact spliceLoop_length offset fn contents funcBody comments _ (extractSpans_eq_some_iff.1 h).2

/-- Witness for C3 on the sample file. -/
theorem reinsert_withoutComments_witness :
    InBounds 1 sampleFunc sampleContents ∧ InSourceOrder sampleComments ∧
      ∃ funcBody withoutComments onlyComments,
        extractSpans 1 sampleFunc sampleContents sampleComments =
          some (funcBody, withoutComments, onlyComments) ∧
        reinsert 1 sampleFunc sampleContents sampleComments withoutComments = funcBody ∧
        funcBody.length + sampleComments.countP (contained sampleFunc) =
          withoutComments.length + onlyComments.length :=
  ⟨by unfold InBounds; decide, by unfold InSourceOrder; decide,
    reinsert_withoutComments 1 sampleFunc sampleContents sampleComments
      (by unfold InBounds; decide) (by unfold InSourceOrder; decide)⟩

/-! ## Lemmas: the record -/

theorem find_filter_of_ne (l : List (FuncMeasurement × Nat)) (k k' : FuncMeasurement)
    (h : k ≠ k') :
    (l.filter (fun e => e.1 != k)).find? (fun e => e.1 == k') = l.find? (fun e => e.1 == k') := by
  induction l with
  | nil => rfl
  | cons e t ih =>
    by_cases he : e.1 = k
    · have hne : (e.1 == k') = false := by
        rw [he]
        simpa using h
      rw [List.find?_cons_of_neg _ (by simp [hne])]
      simp [List.filter_cons, he, ih]
    · by_cases hk : (e.1 == k') = true
      · simp [List.filter_cons, he, List.find?_cons, hk]
      · simp [List.filter_cons, he, List.find?_cons, hk, ih]

theorem get_set_self (s : FunctionStats) (k : FuncMeasurement) (v : Nat)
    (hk : measurementKinds.contains k = true) : (s.Set k v).Get k = .ok v := by
  have hmem : k ∈ measurementKinds := by simpa using hk
  simp [FunctionStats.Set, FunctionStats.Get, hmem]

theorem get_set_of_ne (s : FunctionStats) (k k' : FuncMeasurement) (v : Nat) (h : k ≠ k') :
    (s.Set k v).Get k' = s.Get k' := by
  simp only [FunctionStats.Set, FunctionStats.Get]
  rw [List.find?_cons_of_neg _ (by simpa using h), find_filter_of_ne _ _ _ h]

/-- The measurements a record carries after lines 40 and 49-56. -/
theorem setMeasurements_get (T : UnicodeTables) (stats : FunctionStats)
    (comments : List CommentGroup) (funcDocs funcBody withoutComments onlyComments : Str) :
    let st := setMeasurements T stats comments funcDocs funcBody withoutComments onlyComments
    st.Get Comments = .ok comments.length ∧
    st.Get Todos = .ok (countTodos T [funcDocs, onlyComments]).1 ∧
    st.Get TodosCaseinsensitive = .ok (countTodos T [funcDocs, onlyComments]).2 ∧
    st.Get Len = .ok (runeCount withoutComments) ∧
    st.Get TotalLen = .ok (runeCount funcBody) ∧
    st.Get TotalLines = .ok (countLines funcBody []) ∧
    st.Get Lines = .ok (countLines withoutComments [ascii "", ascii "\x7d"]) ∧
    st.Get CommentLines =
      .ok (countLines onlyComments [ascii "", ascii "//", ascii "/*", ascii "*/"]) := by
  intro st
  simp only [st, setMeasurements]
  refine ⟨?_, ?_, ?_, ?_, ?_, ?_, ?_, ?_⟩
  all_goals
    repeat (first
      | rw [get_set_self _ _ _ (by decide)]
      | rw [get_set_of_ne _ _ _ _ (by decide)])

theorem calculateLines_eq_some_iff {T : UnicodeTables} {stats st : FunctionStats} {offset : Int}
    {fn : FuncDecl} {contents : Str} {comments : List CommentGroup} {funcDocs : Str} :
    calculateLines T stats offset fn contents comments funcDocs = some st ↔
      ∃ funcBody w o, extractSpans offset fn contents comments = some (funcBody, w, o) ∧
        st = setMeasurements T stats comments funcDocs funcBody w o := by
  unfold calculateLines
  constructor
  · intro h
    obtain ⟨⟨fb, w, o⟩, h1, h2⟩ := Option.map_eq_some'.1 h
    exact ⟨fb, w, o, h1, h2.symm⟩
  · rintro ⟨fb, w, o, h1, rfl⟩
    simp [h1]

/-! ## Lemmas: `countLines` -/

theorem foldl_count_skip {α : Type} (p : α → Bool) (xs : List α) (k : Nat) :
    xs.foldl (fun count x => if p x then count else count + 1) k =
      k + xs.countP (fun x => !p x) := by
  induction xs generalizing k with
  | nil => simp
  | cons x t ih =>
    rw [List.foldl_cons, ih]
    by_cases h : p x = true
    · simp [h]
    · simp [h]
      omega

theorem countLines_eq_countP (str : Str) (ignoreLines : List Str) :
    countLines str ignoreLines =
      (splitLines str).countP fun line => !(ignoreSet ignoreLines).contains (TrimSpace line) := by
  unfold countLines
  rw [foldl_count_skip]
  simp

theorem splitLines_length (s : Str) : (splitLines s).length = s.count 10 + 1 := by
  induction s with
  | nil => rfl
  | cons b t ih =>
    rw [splitLines]
    by_cases hb : b = 10
    · subst hb
      simp [ih]
    · rw [if_neg hb, List.count_cons_of_ne (Ne.symm hb)]
      cases hsp : splitLines t with
      | nil => simp [hsp] at ih
      | cons l ls => simpa [hsp] using ih

theorem countLines_le (str : Str) (ignoreLines : List Str) :
    countLines str ignoreLines ≤ str.count 10 + 1 := by
  rw [countLines_eq_countP, ← splitLines_length]
  exact List.countP_le_length _

theorem countLines_nil (str : Str) : countLines str [] = str.count 10 + 1 := by
  rw [countLines_eq_countP, ← splitLines_length]
  simp [ignoreSet]

theorem mem_ignoreSet (ignoreLines : List Str) (x : Str) :
    x ∈ ignoreSet ignoreLines ↔ x ∈ ignoreLines.map TrimSpace := by
  unfold ignoreSet
  have key : ∀ (l acc : List Str),
      x ∈ l.foldl (fun m il => TrimSpace il :: m) acc ↔ x ∈ l.map TrimSpace ∨ x ∈ acc := by
    intro l
    induction l with
    | nil => simp
    | cons a t ih =>
      intro acc
      rw [List.foldl_cons, ih]
      simp only [List.mem_cons, List.map_cons]
      tauto
  simpa using key ignoreLines []

/-! ## Measurements: the claims -/

/-- C5: for every input on which `calculateLines` returns, the record carries a
`TotalLines` value and a `Lines` value, and `TotalLines ≥ Lines`. -/
theorem totalLines_ge_lines (T : UnicodeTables) (stats st : FunctionStats) (offset : Int)
    (fn : FuncDecl) (contents : Str) (comments : List CommentGroup) (funcDocs : Str)
    (h : calculateLines T stats offset fn contents comments funcDocs = some st) :
    ∃ totalLines lines, st.Get TotalLines = .ok totalLines ∧ st.Get Lines = .ok lines ∧
      totalLines ≥ lines := by
  obtain ⟨funcBody, w, o, hsp, rfl⟩ := calculateLines_eq_some_iff.1 h
  obtain ⟨-, -, -, -, -, h1, h2, -⟩ := setMeasurements_get T stats comments funcDocs funcBody w o
  refine ⟨_, _, h1, h2, ?_⟩
  have hsub := spliceLoop_sublist offset fn contents funcBody comments (w, o)
    (extractSpans_eq_some_iff.1 hsp).2
  rw [countLines_nil]
  exact le_trans (countLines_le _ _) (Nat.succ_le_succ (List.Sublist.count_le hsub 10))

/-- Witness for C5 on the sample file: 6 lines in all, 2 lines of code. -/
theorem totalLines_ge_lines_witness :
    calculateLines asciiTables sampleStats 1 sampleFunc sampleContents sampleComments
        (ascii "f does x.\n") = some sampleResult ∧
      sampleResult.Get TotalLines = .ok 6 ∧ sampleResult.Get Lines = .ok 2 ∧
      ∃ totalLines lines, sampleResult.Get TotalLines = .ok totalLines ∧
        sampleResult.Get Lines = .ok lines ∧ totalLines ≥ lines :=
  ⟨by decide, rfl, rfl,
    totalLines_ge_lines asciiTables sampleStats sampleResult 1 sampleFunc sampleContents
      sampleComments (ascii "f does x.\n") (by decide)⟩

/-- C8: once the three texts are computed, `calculateLines` returns the record
with `Comments` the length of the comment list, `Todos` and
`TodosCaseinsensitive` the two results of `countTodos(funcDocs, onlyComments)`,
`Len` and `TotalLen` the rune counts of `withoutComments` and `funcBody`,
`TotalLines`, `Lines` and `CommentLines` the `countLines` values with the
ignore lists of lines 54-56. -/
theorem measurements_of_calculateLines (T : UnicodeTables) (stats : FunctionStats)
    (offset : Int) (fn : FuncDecl) (contents : Str) (comments : List CommentGroup)
    (funcDocs funcBody withoutComments onlyComments : Str)
    (h : extractSpans offset fn contents comments = some (funcBody, withoutComments, onlyComments)) :
    ∃ st, calculateLines T stats offset fn contents comments funcDocs = some st ∧
      st.Get Todos = .ok (countTodos T [funcDocs, onlyComments]).1 ∧
      st.Get TodosCaseinsensitive = .ok (countTodos T [funcDocs, onlyComments]).2 ∧
      st.Get Len = .ok (runeCount withoutComments) ∧
      st.Get TotalLen = .ok (runeCount funcBody) ∧
      st.Get TotalLines = .ok (countLines funcBody []) ∧
      st.Get Lines = .ok (countLines withoutComments [ascii "", ascii "\x7d"]) ∧
      st.Get CommentLines =
        .ok (countLines onlyComments [ascii "", ascii "//", ascii "/*", ascii "*/"]) := by
  refine ⟨_, calculateLines_eq_some_iff.2 ⟨funcBody, withoutComments, onlyComments, h, rfl⟩, ?_⟩
  exact (setMeasurements_get T stats comments funcDocs funcBody withoutComments onlyComments).2

/-- Witness for C8 on the sample file. -/
theorem measurements_of_calculateLines_witness :
    ∃ st, calculateLines asciiTables sampleStats 1 sampleFunc sampleContents sampleComments
        (ascii "f does x.\n") = some st ∧
      st.Get Todos = .ok (countTodos asciiTables
        [ascii "f does x.\n", ascii "/* TODO: a */\n// bc\n"]).1 ∧
      st.Get TodosCaseinsensitive = .ok (countTodos asciiTables
        [ascii "f does x.\n", ascii "/* TODO: a */\n// bc\n"]).2 ∧
      st.Get Len = .ok (runeCount (ascii "\nfunc f() \x7b\n\t\n\tx()\n\t\n\x7d")) ∧
      st.Get TotalLen =
        .ok (runeCount (ascii "\nfunc f() \x7b\n\t/* TODO: a */\n\tx()\n\t// bc\n\x7d")) ∧
      st.Get TotalLines =
        .ok (countLines (ascii "\nfunc f() \x7b\n\t/* TODO: a */\n\tx()\n\t// bc\n\x7d") []) ∧
      st.Get Lines = .ok (countLines (ascii "\nfunc f() \x7b\n\t\n\tx()\n\t\n\x7d")
        [ascii "", ascii "\x7d"]) ∧
      st.Get CommentLines = .ok (countLines (ascii "/* TODO: a */\n// bc\n")
        [ascii "", ascii "//", ascii "/*", ascii "*/"]) :=
  measurements_of_calculateLines asciiTables sampleStats 1 sampleFunc sampleContents
    sampleComments (ascii "f does x.\n")
    (ascii "\nfunc f() \x7b\n\t/* TODO: a */\n\tx()\n\t// bc\n\x7d")
    (ascii "\nfunc f() \x7b\n\t\n\tx()\n\t\n\x7d") (ascii "/* TODO: a */\n// bc\n") (by decide)

/-- C9, counterexample: with the ignore string `" \x7d"` the line `"\x7d"` is
skipped although its trimmed content `"\x7d"` is not literally the supplied string. -/
theorem countLines_untrimmed_ignore :
    countLines (ascii "\x7d") [ascii " \x7d"] = 0 ∧
      linesNotIn (ascii "\x7d") [ascii " \x7d"] = 1 := by
  decide

/-- C9, amended: `countLines` returns the number of newline-separated lines
whose whitespace-trimmed content is not the whitespace-trimmed form of one of
the supplied ignore strings. -/
theorem countLines_eq_linesNotIn_trimmed (str : Str) (ignoreLines : List Str) :
    countLines str ignoreLines = linesNotIn str (ignoreLines.map TrimSpace) := by
  rw [countLines_eq_countP, linesNotIn]
  congr 1
  funext line
  congr 1
  rw [Bool.eq_iff_iff]
  simp only [List.contains_eq_any_beq, List.any_eq_true, beq_iff_eq]
  constructor
  · rintro ⟨x, hx, rfl⟩
    exact ⟨_, (mem_ignoreSet ignoreLines _).1 hx, rfl⟩
  · rintro ⟨x, hx, rfl⟩
    exact ⟨_, (mem_ignoreSet ignoreLines _).2 hx, rfl⟩

/-! ## `countTodos`: lemmas and claims -/

theorem toUpper_todoTag (T : UnicodeTables) (w : Str) (h : w ∈ todoTags) : ToUpper T w = w := by
  simp only [todoTags, List.mem_cons, List.mem_singleton, List.not_mem_nil, or_false] at h
  rcases h with rfl | rfl | rfl | rfl | rfl | rfl | rfl | rfl <;> rfl

theorem todoStep_le (T : UnicodeTables) (acc : Nat × Nat) (word : Str) (h : acc.1 ≤ acc.2) :
    (todoStep T acc word).1 ≤ (todoStep T acc word).2 := by
  unfold todoStep
  by_cases hw : todoTags.contains word = true
  · have hm : word ∈ todoTags := by simpa using hw
    rw [toUpper_todoTag T word hm]
    simp only [hw, ↓reduceIte]
    omega
  · simp only [Bool.not_eq_true] at hw
    by_cases hu : todoTags.contains (ToUpper T word) = true
    · simp only [hw, hu, ↓reduceIte, Bool.false_eq_true]
      omega
    · simp only [Bool.not_eq_true] at hu
      simp only [hw, hu, ↓reduceIte, Bool.false_eq_true]
      exact h

theorem foldl_invariant {α β : Type} (P : β → Prop) (f : β → α → β)
    (hf : ∀ b a, P b → P (f b a)) (xs : List α) (b : β) (hb : P b) : P (xs.foldl f b) := by
  induction xs generalizing b with
  | nil => exact hb
  | cons x t ih => exact ih _ (hf b x hb)

theorem countTodos_le (T : UnicodeTables) (strs : List Str) :
    (countTodos T strs).1 ≤ (countTodos T strs).2 := by
  unfold countTodos
  apply foldl_invariant (fun acc : Nat × Nat => acc.1 ≤ acc.2)
  · intro acc str hacc
    exact foldl_invariant (fun acc : Nat × Nat => acc.1 ≤ acc.2) _
      (fun b a hb => todoStep_le T b a hb) _ _ hacc
  · exact le_refl _

/-- C6: for every list of input strings the exact-case count returned by
`countTodos` is at most the case-insensitive count; hence the `Todos`
measurement written by `calculateLines` never exceeds `TodosCaseinsensitive`. -/
theorem countTodos_fst_le_snd (T : UnicodeTables) :
    (∀ strs : List Str, (countTodos T strs).1 ≤ (countTodos T strs).2) ∧
    (∀ (stats : FunctionStats) (comments : List CommentGroup)
        (funcDocs funcBody withoutComments onlyComments : Str),
      ∃ todos todosCaseinsensitive,
        (setMeasurements T stats comments funcDocs funcBody withoutComments onlyComments).Get
            Todos = .ok todos ∧
        (setMeasurements T stats comments funcDocs funcBody withoutComments onlyComments).Get
            TodosCaseinsensitive = .ok todosCaseinsensitive ∧
        todos ≤ todosCaseinsensitive) := by
  refine ⟨countTodos_le T, fun stats comments funcDocs funcBody w o => ?_⟩
  obtain ⟨-, h1, h2, -⟩ := setMeasurements_get T stats comments funcDocs funcBody w o
  exact ⟨_, _, h1, h2, countTodos_le T _⟩

/-- The fields read by the loop of `strings.FieldsFunc`, in terms of the
pieces between separators: in state `none` the non-empty pieces, in state
`some w` the text `w` extended by the first piece, then the non-empty pieces
that follow. -/
theorem fieldsGo_eq (f : Nat → Bool) (rs : List (Nat × Str)) (cur : Option Str) :
    fieldsGo f rs cur =
      match cur, rs.splitOnP (fun x => f x.1) with
      | none, segs =>
        (segs.filter fun run => !run.isEmpty).map fun run => (run.map Prod.snd).flatten
      | some w, [] => [w]
      | some w, seg :: segs =>
        (w ++ (seg.map Prod.snd).flatten) ::
          (segs.filter fun run => !run.isEmpty).map fun run => (run.map Prod.snd).flatten := by
  induction rs generalizing cur with
  | nil =>
    cases cur <;> simp [fieldsGo, List.splitOnP_nil]
  | cons x rest ih =>
    obtain ⟨r, bs⟩ := x
    have hne := List.splitOnP_ne_nil (fun x : Nat × Str => f x.1) rest
    rw [List.splitOnP_cons]
    cases hsp : rest.splitOnP (fun x => f x.1) with
    | nil => exact absurd hsp hne
    | cons seg segs =>
      cases cur with
      | none =>
        by_cases hf : f r = true
        · simp [fieldsGo, hf, ih, hsp]
        · simp [fieldsGo, hf, ih, hsp, List.modifyHead]
      | some w =>
        by_cases hf : f r = true
        · simp [fieldsGo, hf, ih, hsp]
        · simp [fieldsGo, hf, ih, hsp, List.modifyHead]

theorem fieldsFunc_eq_letterRuns (T : UnicodeTables) (s : Str) :
    FieldsFunc s (fun r => !IsLetter T r) = letterRuns T s := by
  unfold FieldsFunc letterRuns
  rw [fieldsGo_eq]

theorem foldl_todoStep (T : UnicodeTables) (words : List Str) (acc : Nat × Nat) :
    words.foldl (todoStep T) acc =
      (acc.1 + words.countP (fun w => todoTags.contains w),
        acc.2 + words.countP (fun w => todoTags.contains (ToUpper T w))) := by
  induction words generalizing acc with
  | nil => simp
  | cons w t ih =>
    rw [List.foldl_cons, ih, List.countP_cons, List.countP_cons]
    simp only [todoStep]
    cases todoTags.contains w <;> cases todoTags.contains (ToUpper T w) <;>
      simp only [↓reduceIte, Bool.false_eq_true, Prod.mk.injEq] <;> omega

theorem countTodos_foldl (T : UnicodeTables) (strs : List Str) (acc : Nat × Nat) :
    strs.foldl
        (fun acc str => (FieldsFunc str (fun r => !IsLetter T r)).foldl (todoStep T) acc) acc =
      (acc.1 + (strs.map (tagRuns T)).sum, acc.2 + (strs.map (tagRunsUpper T)).sum) := by
  induction strs generalizing acc with
  | nil => simp
  | cons s t ih =>
    rw [List.foldl_cons, ih, foldl_todoStep, fieldsFunc_eq_letterRuns]
    simp only [List.map_cons, List.sum_cons, tagRuns, tagRunsUpper]
    ext <;> simp <;> omega

theorem countTodos_eq_sum (T : UnicodeTables) (strs : List Str) :
    countTodos T strs = ((strs.map (tagRuns T)).sum, (strs.map (tagRunsUpper T)).sum) := by
  unfold countTodos
  rw [countTodos_foldl]
  simp

/-- C10: the exact-case count of `countTodos` is the sum, over the input
strings taken one by one, of the number of maximal letter runs of that string
that are one of the eight tags; the counts of a concatenated argument list are
the componentwise sums of the counts of its parts, so no token spans two
strings (`"TO"`, `"DO"` counts nothing); and a tag inside a longer letter run
(`"TODOs"`) is not counted, while `"TODO: x"` is. -/
theorem countTodos_exact_spec (T : UnicodeTables) :
    (∀ strs : List Str, (countTodos T strs).1 = (strs.map (tagRuns T)).sum) ∧
    (∀ xs ys : List Str, countTodos T (xs ++ ys) =
      ((countTodos T xs).1 + (countTodos T ys).1, (countTodos T xs).2 + (countTodos T ys).2)) ∧
    countTodos T [ascii "TO", ascii "DO"] = (0, 0) ∧
    countTodos T [ascii "TODOs"] = (0, 0) ∧
    countTodos T [ascii "TODO: x"] = (1, 1) := by
  refine ⟨fun strs => by rw [countTodos_eq_sum], fun xs ys => ?_, rfl, rfl, rfl⟩
  simp only [countTodos_eq_sum, List.map_append, List.sum_append]

/-! ## Lemmas: UTF-8 -/

theorem getD_append_left (s y : Str) (i : Nat) (h : i < s.length) :
    (s ++ y).getD i 0 = s.getD i 0 := by
  simp [List.getD_eq_getElem?_getD, List.getElem?_append_left h]

/-- A rune that decodes without error is decoded the same way when more bytes follow. -/
theorem decodeCore_mono (n s0 s1 s2 s3 n' s1' s2' s3' : Nat)
    (h : decodeCore n s0 s1 s2 s3 ≠ (RuneError, 1)) (hn : 1 ≤ n) (hn' : n ≤ n')
    (h1 : 1 < n → s1' = s1) (h2 : 2 < n → s2' = s2) (h3 : 3 < n → s3' = s3) :
    decodeCore n' s0 s1' s2' s3' = decodeCore n s0 s1 s2 s3 := by
  have hn1 : ¬ n < 1 := by omega
  have hn1' : ¬ n' < 1 := by omega
  unfold decodeCore at h ⊢
  simp only [hn1, hn1', if_false] at h ⊢
  by_cases c1 : s0 < 0x80
  · simp only [c1, if_true]
  · simp only [c1, if_false] at h ⊢
    by_cases c2 : s0 < 0xC2 ∨ 0xF4 < s0
    · simp only [c2, if_true]
    · simp only [c2, if_false] at h ⊢
      by_cases cA : s0 ≤ 0xDF
      · simp only [cA, if_true, le_refl] at h ⊢
        by_cases c3 : n < 2
        · simp only [c3, if_true] at h
          exact absurd rfl h
        · have c3' : ¬ n' < 2 := by omega
          have e1 : s1' = s1 := h1 (by omega)
          subst e1
          simp only [c3, c3', if_false]
      · simp only [cA, if_false] at h ⊢
        by_cases cB : s0 ≤ 0xEF
        · simp only [cB, if_true, le_refl] at h ⊢
          by_cases c3 : n < 3
          · simp only [c3, if_true] at h
            exact absurd rfl h
          · have c3' : ¬ n' < 3 := by omega
            have e1 : s1' = s1 := h1 (by omega)
            have e2 : s2' = s2 := h2 (by omega)
            subst e1 e2
            simp only [c3, c3', if_false]
        · simp only [cB, if_false] at h ⊢
          by_cases c3 : n < 4
          · simp only [c3, if_true] at h
            exact absurd rfl h
          · have c3' : ¬ n' < 4 := by omega
            have e1 : s1' = s1 := h1 (by omega)
            have e2 : s2' = s2 := h2 (by omega)
            have e3 : s3' = s3 := h3 (by omega)
            subst e1 e2 e3
            simp only [c3, c3', if_false]

theorem decodeRune_append (s y : Str) (h : decodeRune s ≠ (RuneError, 1)) (hs : s ≠ []) :
    decodeRune (s ++ y) = decodeRune s := by
  have hpos : 0 < s.length := List.length_pos.2 hs
  unfold decodeRune at h ⊢
  rw [getD_append_left s y 0 hpos]
  apply decodeCore_mono _ _ _ _ _ _ _ _ _ h hpos
  · rw [List.length_append]
    omega
  · exact fun h1 => getD_append_left s y 1 h1
  · exact fun h2 => getD_append_left s y 2 h2
  · exact fun h3 => getD_append_left s y 3 h3

theorem runesFrom_length_append (a y : Str) (k : Nat) (h : wellFormedFrom k a = true) :
    (runesFrom k (a ++ y)).length = (runesFrom k a).length + (runesFrom 0 y).length := by
  induction a generalizing k with
  | nil =>
    have hk : k = 0 := by simpa [wellFormedFrom] using h
    subst hk
    simp [runesFrom]
  | cons b t ih =>
    cases k with
    | zero =>
      simp only [wellFormedFrom, Bool.and_eq_true, decide_eq_true_eq] at h
      have hd := decodeRune_append (b :: t) y h.1 (List.cons_ne_nil _ _)
      rw [List.cons_append] at hd ⊢
      simp only [runesFrom, List.length_cons, hd]
      rw [ih _ h.2]
      omega
    | succ k =>
      simp only [wellFormedFrom] at h
      simp only [List.cons_append, runesFrom]
      exact ih k h

/-- Rune counts add up over a well-formed first part. -/
theorem runeCount_append (a y : Str) (h : ValidUTF8 a) :
    runeCount (a ++ y) = runeCount a + runeCount y :=
  runesFrom_length_append a y 0 h


/-! ## Character counts and the function text: the claims -/

theorem take_body_eq_textBetween (offset : Int) (fn : FuncDecl) (contents body : Str)
    (hbody : slice contents (fn.Pos - offset - 1) (fn.End - offset) = some body)
    (c : CommentGroup) (hcon : contained fn c = true) (hc : c.Pos ≤ c.End) :
    body.take (c.Pos - fn.Pos + 1).toNat =
      textBetween contents (fn.Pos - offset - 1) (c.Pos - offset) := by
  obtain ⟨hp, he⟩ := (contained_iff fn c).1 hcon
  obtain ⟨⟨hb0, hb1, hb2⟩, rfl⟩ := slice_some_iff.1 hbody
  unfold textBetween
  rw [List.take_take]
  congr 1
  omega

/-- Cutting comment groups that lie on character boundaries does not raise the rune count. -/
theorem runeCount_forwardCut_le (offset : Int) (fn : FuncDecl) (contents body : Str)
    (hbody : slice contents (fn.Pos - offset - 1) (fn.End - offset) = some body)
    (cs : List CommentGroup) (hs : InSourceOrder cs)
    (hv : ∀ c ∈ cs, contained fn c = true → OnRuneBoundaries offset fn contents c) :
    runeCount (forwardCut fn cs body) ≤ runeCount body := by
  have hlen := slice_length hbody
  obtain ⟨⟨hb0, hb1, hb2⟩, -⟩ := slice_some_iff.1 hbody
  induction cs with
  | nil => rw [forwardCut_nil]
  | cons c rest ih =>
    obtain ⟨hc, hord, hs'⟩ := inSourceOrder_cons hs
    have ih' := ih hs' (fun d hd => hv d (List.mem_cons_of_mem _ hd))
    by_cases hcon : contained fn c = true
    · obtain ⟨hp, he⟩ := (contained_iff fn c).1 hcon
      obtain ⟨v1, v2⟩ := hv c (List.mem_cons_self _ _) hcon
      have hW := forwardCut_untouched fn rest body c.End hord (c.End - fn.Pos + 1).toNat
        (by omega) (by omega)
      have h4 := forwardCut_cons_of_contained fn c rest body hcon hc hord (by omega)
      have hmid : body.take (c.End - fn.Pos + 1).toNat =
          body.take (c.Pos - fn.Pos + 1).toNat ++ commentText offset contents c := by
        have e : (c.End - fn.Pos + 1).toNat = (c.Pos - fn.Pos + 1).toNat +
            ((c.End - fn.Pos + 1).toNat - (c.Pos - fn.Pos + 1).toNat) := by omega
        rw [commentText_eq_body offset fn contents body hbody c hcon hc]
        conv_lhs => rw [e, List.take_add]
      rw [← take_body_eq_textBetween offset fn contents body hbody c hcon hc] at v1
      rw [hW, hmid, List.append_assoc, runeCount_append _ _ v1, runeCount_append _ _ v2] at ih'
      rw [h4, runeCount_append _ _ v1]
      omega
    · simp only [Bool.not_eq_true] at hcon
      rw [forwardCut_cons_of_not_contained fn c rest body hcon]
      exact ih'

/-- When every contained comment group begins and ends on a character boundary
of `funcBody` (the text before it and its own text are well-formed UTF-8), on
accepted positions and a comment list in source order, `calculateLines` returns
a record whose `TotalLen` is at least its `Len`, both counted in runes. -/
theorem totalLen_ge_len (T : UnicodeTables) (stats : FunctionStats) (offset : Int)
    (fn : FuncDecl) (contents : Str) (comments : List CommentGroup) (funcDocs : Str)
    (hb : InBounds offset fn contents) (hs : InSourceOrder comments)
    (hv : ∀ c ∈ comments, contained fn c = true → OnRuneBoundaries offset fn contents c) :
    ∃ st totalLen len, calculateLines T stats offset fn contents comments funcDocs = some st ∧
      st.Get TotalLen = .ok totalLen ∧ st.Get Len = .ok len ∧ totalLen ≥ len := by
  obtain ⟨funcBody, hbody, h⟩ := extractSpans_sorted offset fn contents comments hb hs
  obtain ⟨-, -, -, h1, h2, -⟩ := setMeasurements_get T stats comments funcDocs funcBody
    (forwardCut fn comments funcBody) (commentTexts offset fn contents comments)
  exact ⟨_, _, _, calculateLines_eq_some_iff.2 ⟨_, _, _, h, rfl⟩, h2, h1,
    runeCount_forwardCut_le offset fn contents funcBody hbody comments hs hv⟩

/-- C4: the file `p.go` starts with the line `// v1`, so `NewVisitor` takes
`file.Pos()`, the position 7 of the `package` keyword, as the offset. Every
slice of `calculateLines` is then six bytes early: `funcBody` runs from the
`k` of `package` to the `re` of `return`, and the comment `//` after the string
`"😀😀"` is cut out of the middle of the two characters. `analyzeFile` returns
one record with `TotalLen = 33` and `Len = 34`. With the offset 1 of the first
byte of the file the same function gives `TotalLen = 33` and `Len = 31`. -/
theorem totalLen_lt_len_split_character :
    (NewVisitor emojiEnv plainParams emojiFile emojiFileSet []).map (fun v => v.offset) =
        some 7 ∧
    extractSpans 7 emojiDecl.toFuncDecl emojiContents emojiFile.Comments =
        some (ascii "kage p\nfunc f() \x7b\n\t_ = \"" ++
            [0xF0, 0x9F, 0x98, 0x80, 0xF0, 0x9F, 0x98, 0x80] ++ ascii "\"//\n\tre",
          ascii "kage p\nfunc f() \x7b\n\t_ = \"" ++
            [0xF0, 0x9F, 0x98, 0x9F, 0x98, 0x80] ++ ascii "\"//\n\tre",
          [0x80, 0xF0, 10]) ∧
    (∃ st, analyzeFile emojiEnv plainParams (ascii "p.go") = some [st] ∧
      st.Get TotalLen = .ok 33 ∧ st.Get Len = .ok 34) ∧
    ∃ st, calculateLines asciiTables emojiStats 1 emojiFunc emojiContents emojiComments [] =
        some st ∧
      st.Get TotalLen = .ok 33 ∧ st.Get Len = .ok 31 :=
  ⟨rfl, by decide, ⟨_, rfl, rfl, rfl⟩, ⟨_, rfl, rfl, rfl⟩⟩

/-- C7, counterexample: on the sample file `funcBody` is the text from index
`fun.Pos - offset - 1 = 23` on and begins with the newline before `func`, while
`contents[fun.Pos-offset : fun.End-offset]` is the declaration alone. -/
theorem funcBody_starts_one_byte_early :
    (extractSpans 1 sampleFunc sampleContents sampleComments).map (fun sp => sp.1) =
        some (ascii "\nfunc f() \x7b\n\t/* TODO: a */\n\tx()\n\t// bc\n\x7d") ∧
      slice sampleContents (sampleFunc.Pos - 1) (sampleFunc.End - 1) =
        some (ascii "func f() \x7b\n\t/* TODO: a */\n\tx()\n\t// bc\n\x7d") := by
  decide

/-- C7, amended: whenever `calculateLines` returns, `funcBody` is the slice
`contents[fun.Pos-offset-1 : fun.End-offset]`; when `fun.Pos ≤ fun.End` that is
the byte at index `fun.Pos - offset - 1`, one before the declaration, followed
by `contents[fun.Pos-offset : fun.End-offset]`; and `TotalLen` and `TotalLines`
are the rune count and the line count of this text. -/
theorem funcBody_eq_slice (T : UnicodeTables) (stats st : FunctionStats) (offset : Int)
    (fn : FuncDecl) (contents : Str) (comments : List CommentGroup) (funcDocs : Str)
    (h : calculateLines T stats offset fn contents comments funcDocs = some st) :
    ∃ funcBody withoutComments onlyComments,
      extractSpans offset fn contents comments = some (funcBody, withoutComments, onlyComments) ∧
      slice contents (fn.Pos - offset - 1) (fn.End - offset) = some funcBody ∧
      (fn.Pos ≤ fn.End → ∃ b decl, contents[(fn.Pos - offset - 1).toNat]? = some b ∧
        slice contents (fn.Pos - offset) (fn.End - offset) = some decl ∧ funcBody = b :: decl) ∧
      st.Get TotalLen = .ok (runeCount funcBody) ∧
      st.Get TotalLines = .ok (countLines funcBody []) := by
  obtain ⟨funcBody, w, o, hsp, rfl⟩ := calculateLines_eq_some_iff.1 h
  obtain ⟨-, -, -, -, h1, h2, -⟩ := setMeasurements_get T stats comments funcDocs funcBody w o
  have hbody := (extractSpans_eq_some_iff.1 hsp).1
  refine ⟨funcBody, w, o, hsp, hbody, ?_, h1, h2⟩
  intro hle
  obtain ⟨⟨hb0, hb1, hb2⟩, rfl⟩ := slice_some_iff.1 hbody
  have hlt : (fn.Pos - offset - 1).toNat < contents.length := by omega
  refine ⟨contents[(fn.Pos - offset - 1).toNat], _, List.getElem?_eq_getElem hlt,
    slice_eq_some (by omega) (by omega) hb2, ?_⟩
  rw [List.drop_eq_getElem_cons hlt]
  have e1 : (fn.End - offset).toNat - (fn.Pos - offset - 1).toNat =
      ((fn.End - offset).toNat - (fn.Pos - offset).toNat) + 1 := by omega
  have e2 : (fn.Pos - offset - 1).toNat + 1 = (fn.Pos - offset).toNat := by omega
  rw [e1, List.take_succ_cons, e2]

/-- Witness for C7 on the sample file. -/
theorem funcBody_eq_slice_witness :
    calculateLines asciiTables sampleStats 1 sampleFunc sampleContents sampleComments
        (ascii "f does x.\n") = some sampleResult ∧
      ∃ funcBody withoutComments onlyComments,
        extractSpans 1 sampleFunc sampleContents sampleComments =
          some (funcBody, withoutComments, onlyComments) ∧
        slice sampleContents (sampleFunc.Pos - 1 - 1) (sampleFunc.End - 1) = some funcBody ∧
        (sampleFunc.Pos ≤ sampleFunc.End →
          ∃ b decl, sampleContents[(sampleFunc.Pos - 1 - 1).toNat]? = some b ∧
            slice sampleContents (sampleFunc.Pos - 1) (sampleFunc.End - 1) = some decl ∧
            funcBody = b :: decl) ∧
        sampleResult.Get TotalLen = .ok (runeCount funcBody) ∧
        sampleResult.Get TotalLines = .ok (countLines funcBody []) :=
  ⟨by decide,
    funcBody_eq_slice asciiTables sampleStats sampleResult 1 sampleFunc sampleContents
      sampleComments (ascii "f does x.\n") (by decide)⟩

/-! ## `ParseTypes`: lemmas and claims -/

theorem accepted_eq_true_iff (ty : FuncMeasurement) :
    accepted ty = true ↔ ∃ v, zeroStats.Get ty = .ok v := by
  unfold accepted
  cases h : zeroStats.Get ty with
  | error e => simp
  | ok v => simp

theorem accepted_eq_false_iff (ty : FuncMeasurement) :
    accepted ty = false ↔ ∃ err, zeroStats.Get ty = .error err := by
  unfold accepted
  cases h : zeroStats.Get ty with
  | error e => simp
  | ok v => simp

theorem splitByte_ne_nil (sep : Nat) (s : Str) : splitByte sep s ≠ [] := by
  cases s with
  | nil => simp [splitByte]
  | cons b t =>
    rw [splitByte]
    split
    · simp
    · split <;> simp

/-- The loop succeeds exactly when `fs.Get` accepts every trimmed part, and then
returns `res` followed by the trimmed parts in order. -/
theorem parseTypesLoop_eq_ok_iff (fs : FunctionStats) (parts : List Str)
    (res out : List FuncMeasurement) :
    parseTypesLoop fs parts res = .ok out ↔
      (∀ p ∈ parts, ∃ v, fs.Get (TrimSpace p) = .ok v) ∧ out = res ++ parts.map TrimSpace := by
  induction parts generalizing res with
  | nil => simp [parseTypesLoop, eq_comm]
  | cons p rest ih =>
    rw [parseTypesLoop]
    cases h : fs.Get (TrimSpace p) with
    | error e => simp [h]
    | ok v => simp [h, ih]

/-- The error of the loop is the error of `fs.Get` for the first rejected part. -/
theorem parseTypesLoop_eq_error (fs : FunctionStats) (parts : List Str)
    (res : List FuncMeasurement) (err : UnknownMeasurement)
    (h : parseTypesLoop fs parts res = .error err) :
    ∃ pre p post, parts = pre ++ p :: post ∧
      (∀ q ∈ pre, ∃ v, fs.Get (TrimSpace q) = .ok v) ∧ fs.Get (TrimSpace p) = .error err := by
  induction parts generalizing res with
  | nil => simp [parseTypesLoop] at h
  | cons p rest ih =>
    rw [parseTypesLoop] at h
    cases hg : fs.Get (TrimSpace p) with
    | error e =>
      simp only [hg, Except.error.injEq] at h
      subst h
      exact ⟨[], p, rest, rfl, by simp, hg⟩
    | ok v =>
      simp only [hg] at h
      obtain ⟨pre, q, post, hp, hpre, hq⟩ := ih _ h
      refine ⟨p :: pre, q, post, by simp [hp], ?_, hq⟩
      intro x hx
      rcases List.mem_cons.1 hx with rfl | hx
      · exact ⟨v, hg⟩
      · exact hpre x hx

theorem parseTypesLoop_error_of_mem (fs : FunctionStats) (parts : List Str)
    (res : List FuncMeasurement) (p : Str) (hp : p ∈ parts) (err : UnknownMeasurement)
    (hg : fs.Get (TrimSpace p) = .error err) :
    ∃ err', parseTypesLoop fs parts res = .error err' := by
  cases h : parseTypesLoop fs parts res with
  | error e => exact ⟨e, rfl⟩
  | ok out =>
    obtain ⟨v, hv⟩ := ((parseTypesLoop_eq_ok_iff fs parts res out).1 h).1 p hp
    rw [hg] at hv
    exact absurd hv (by simp)

/-- C11: `ParseTypes` succeeds exactly when every comma-separated part, once
trimmed, is a name `FunctionStats.Get` accepts; on success it returns the
trimmed parts in their order, one per part; on failure it returns the error of
`FunctionStats.Get` for the first part that is not accepted, all parts before
it being accepted. `"Lines, Complexity"` gives `[Lines, Complexity]` and the
wrong-case name `"lines"` is rejected with the error naming it. -/
theorem parseTypes_spec :
    (∀ types : Str, (∃ res, ParseTypes types = .ok res) ↔
      ∀ p ∈ splitByte 44 types, accepted (TrimSpace p) = true) ∧
    (∀ (types : Str) (res : List FuncMeasurement), ParseTypes types = .ok res →
      res = (splitByte 44 types).map TrimSpace) ∧
    (∀ (types : Str) (err : UnknownMeasurement), ParseTypes types = .error err →
      ∃ pre p post, splitByte 44 types = pre ++ p :: post ∧
        (∀ q ∈ pre, accepted (TrimSpace q) = true) ∧ accepted (TrimSpace p) = false ∧
        zeroStats.Get (TrimSpace p) = .error err) ∧
    ParseTypes (ascii "Lines, Complexity") = .ok [Lines, Complexity] ∧
    ParseTypes (ascii "lines") = .error ⟨ascii "lines"⟩ := by
  refine ⟨fun types => ?_, fun types res h => ?_, fun types err h => ?_, rfl, rfl⟩
  · unfold ParseTypes
    constructor
    · rintro ⟨res, h⟩ p hp
      exact (accepted_eq_true_iff _).2 (((parseTypesLoop_eq_ok_iff _ _ _ _).1 h).1 p hp)
    · intro h
      exact ⟨_, (parseTypesLoop_eq_ok_iff _ _ _ _).2
        ⟨fun p hp => (accepted_eq_true_iff _).1 (h p hp), rfl⟩⟩
  · simpa using ((parseTypesLoop_eq_ok_iff _ _ _ _).1 h).2
  · obtain ⟨pre, p, post, hp, hpre, hq⟩ := parseTypesLoop_eq_error _ _ _ _ h
    exact ⟨pre, p, post, hp, fun q hq' => (accepted_eq_true_iff _).2 (hpre q hq'),
      (accepted_eq_false_iff _).2 ⟨err, hq⟩, hq⟩

/-- Witness for C11: in `" Len ,bogus, also"` the first part is accepted and the
error names the second. -/
theorem parseTypes_spec_witness :
    ParseTypes (ascii " Len ,bogus, also") = .error ⟨ascii "bogus"⟩ ∧
      ∃ pre p post, splitByte 44 (ascii " Len ,bogus, also") = pre ++ p :: post ∧
        (∀ q ∈ pre, accepted (TrimSpace q) = true) ∧ accepted (TrimSpace p) = false ∧
        zeroStats.Get (TrimSpace p) = .error ⟨ascii "bogus"⟩ :=
  ⟨rfl, parseTypes_spec.2.2.1 (ascii " Len ,bogus, also") ⟨ascii "bogus"⟩ rfl⟩

/-- C12: a successful `ParseTypes` returns one name per comma-separated part,
hence at least one, so that `params.Types[0]` exists; the empty string is an
error, and so is every input with a part that is empty once trimmed, such as a
trailing comma. -/
theorem parseTypes_nonempty :
    (∀ (types : Str) (res : List FuncMeasurement), ParseTypes types = .ok res →
      res.length = (splitByte 44 types).length ∧ ∃ first, res[0]? = some first) ∧
    ParseTypes [] = .error ⟨[]⟩ ∧
    (∀ types : Str, (∃ p ∈ splitByte 44 types, TrimSpace p = []) →
      ∃ err, ParseTypes types = .error err) ∧
    ParseTypes (ascii "Lines,") = .error ⟨[]⟩ := by
  refine ⟨fun types res h => ?_, rfl, fun types h => ?_, rfl⟩
  · have hres : res = (splitByte 44 types).map TrimSpace := by
      simpa using ((parseTypesLoop_eq_ok_iff _ _ _ _).1 h).2
    have hne := splitByte_ne_nil 44 types
    subst hres
    refine ⟨by simp, ?_⟩
    cases hsp : splitByte 44 types with
    | nil => exact absurd hsp hne
    | cons p rest => exact ⟨TrimSpace p, by simp⟩
  · obtain ⟨p, hp, hempty⟩ := h
    exact parseTypesLoop_error_of_mem zeroStats _ [] p hp ⟨[]⟩ (by rw [hempty]; rfl)

/-- Witness for C12: a list of two names and the input with a trailing comma. -/
theorem parseTypes_nonempty_witness :
    ParseTypes (ascii "Len,Lines") = .ok [Len, Lines] ∧
      ([Len, Lines].length = (splitByte 44 (ascii "Len,Lines")).length ∧
        ∃ first, [Len, Lines][0]? = some first) ∧
      ∃ err, ParseTypes (ascii "Lines, ") = .error err :=
  ⟨rfl, parseTypes_nonempty.1 (ascii "Len,Lines") [Len, Lines] rfl,
    parseTypes_nonempty.2.2.1 (ascii "Lines, ") ⟨ascii " ", by decide, rfl⟩⟩

/-! ## Bounds, empty comment lists and line counts: the claims -/

/-- Groups that each end no later than the next begins, none ending before it
begins, are in source order in the sense of `InSourceOrder`. -/
theorem inSourceOrder_of_chain (cs : List CommentGroup) (hc : ∀ c ∈ cs, c.Pos ≤ c.End)
    (hn : cs.Chain' (fun c d => c.End ≤ d.Pos)) : InSourceOrder cs := by
  refine ⟨hc, ?_⟩
  induction cs with
  | nil => exact List.Pairwise.nil
  | cons c rest ih =>
    have hrest := ih (fun d hd => hc d (List.mem_cons_of_mem _ hd)) (List.Chain'.tail hn)
    refine List.Pairwise.cons ?_ hrest
    intro d hd
    cases rest with
    | nil => simp at hd
    | cons e rest' =>
      have hce : c.End ≤ e.Pos := (List.chain'_cons.1 hn).1
      rcases List.mem_cons.1 hd with rfl | hd'
      · exact hce
      · have hee : e.Pos ≤ e.End := hc e (by simp)
        have hed : e.End ≤ d.Pos := (List.pairwise_cons.1 hrest).1 d hd'
        omega

/-- C17: when `0 ≤ fun.Pos-offset-1 ≤ fun.End-offset ≤ len(contents)`, no
comment group ends before it begins and each group ends no later than the next
begins, every slice expression of `calculateLines` is within range: the three
texts are computed and the record is returned, whatever the number of groups
inside or outside the function span. -/
theorem calculateLines_in_bounds (T : UnicodeTables) (stats : FunctionStats) (offset : Int)
    (fn : FuncDecl) (contents : Str) (comments : List CommentGroup) (funcDocs : Str)
    (h₁ : 0 ≤ fn.Pos - offset - 1) (h₂ : fn.Pos - offset - 1 ≤ fn.End - offset)
    (h₃ : fn.End - offset ≤ (contents.length : Int))
    (hc : ∀ c ∈ comments, c.Pos ≤ c.End)
    (hn : comments.Chain' (fun c d => c.End ≤ d.Pos)) :
    (∃ sp, extractSpans offset fn contents comments = some sp) ∧
      ∃ st, calculateLines T stats offset fn contents comments funcDocs = some st := by
  obtain ⟨funcBody, -, h⟩ := extractSpans_sorted offset fn contents comments ⟨h₁, h₂, h₃⟩
    (inSourceOrder_of_chain comments hc hn)
  exact ⟨⟨_, h⟩, _, calculateLines_eq_some_iff.2 ⟨_, _, _, h, rfl⟩⟩

/-- Witness for C17 on the sample file: two groups inside the function, one
before and one after it. -/
theorem calculateLines_in_bounds_witness :
    (∃ sp, extractSpans 1 sampleFunc sampleContents sampleComments = some sp) ∧
      ∃ st, calculateLines asciiTables sampleStats 1 sampleFunc sampleContents sampleComments
        (ascii "f does x.\n") = some st :=
  calculateLines_in_bounds asciiTables sampleStats 1 sampleFunc sampleContents sampleComments
    (ascii "f does x.\n") (by decide) (by decide) (by decide) (by decide)
    (by simp [sampleComments])

theorem spliceLoop_of_none_contained (offset : Int) (fn : FuncDecl) (contents body : Str)
    (cs : List CommentGroup) (h : ∀ c ∈ cs, contained fn c = false) :
    spliceLoop offset fn contents body cs = some (body, []) := by
  induction cs with
  | nil => rfl
  | cons c rest ih =>
    rw [spliceLoop, ih (fun d hd => h d (List.mem_cons_of_mem _ hd))]
    simp only [Option.some_bind]
    exact spliceStep_of_not_contained (h c (List.mem_cons_self _ _))

theorem countTodos_with_empty (T : UnicodeTables) (s : Str) :
    countTodos T [s, []] = countTodos T [s] := by
  rw [countTodos_eq_sum, countTodos_eq_sum]
  simp [tagRuns, tagRunsUpper, letterRuns, runes, runesFrom, List.splitOnP_nil]

/-- C18: on accepted positions, if no comment group is contained in the
function span (the comment list may be empty), `withoutComments` is `funcBody`
and `onlyComments` is empty, and the record returned has `Len = TotalLen`,
`CommentLines = 0`, and `Todos`, `TodosCaseinsensitive` equal to the two counts
of `countTodos` on the doc-comment text alone. -/
theorem calculateLines_of_none_contained (T : UnicodeTables) (stats : FunctionStats)
    (offset : Int) (fn : FuncDecl) (contents : Str) (comments : List CommentGroup)
    (funcDocs : Str) (hb : InBounds offset fn contents)
    (hnone : ∀ c ∈ comments, contained fn c = false) :
    ∃ funcBody st, extractSpans offset fn contents comments = some (funcBody, funcBody, []) ∧
      calculateLines T stats offset fn contents comments funcDocs = some st ∧
      st.Get Len = st.Get TotalLen ∧ st.Get CommentLines = .ok 0 ∧
      st.Get Todos = .ok (countTodos T [funcDocs]).1 ∧
      st.Get TodosCaseinsensitive = .ok (countTodos T [funcDocs]).2 := by
  obtain ⟨h0, h1, h2⟩ := hb
  have hbody := slice_eq_some h0 h1 h2
  have hsp := extractSpans_eq_some_iff.2
    ⟨hbody, spliceLoop_of_none_contained offset fn contents _ comments hnone⟩
  obtain ⟨-, g1, g2, g3, g4, -, -, g5⟩ := setMeasurements_get T stats comments funcDocs
    ((contents.drop (fn.Pos - offset - 1).toNat).take
      ((fn.End - offset).toNat - (fn.Pos - offset - 1).toNat))
    ((contents.drop (fn.Pos - offset - 1).toNat).take
      ((fn.End - offset).toNat - (fn.Pos - offset - 1).toNat)) []
  refine ⟨_, _, hsp, calculateLines_eq_some_iff.2 ⟨_, _, _, hsp, rfl⟩, ?_, ?_, ?_, ?_⟩
  · rw [g3, g4]
  · rw [g5]
    rfl
  · rw [g1, countTodos_with_empty]
  · rw [g2, countTodos_with_empty]

/-- Witness for C18: the function `a` of the file `b_test.go`, whose only
comment group lies before the function. -/
theorem calculateLines_of_none_contained_witness :
    InBounds 1 declA.toFuncDecl walkContents ∧
      (∀ c ∈ walkFile.Comments, contained declA.toFuncDecl c = false) ∧
      ∃ funcBody st,
        extractSpans 1 declA.toFuncDecl walkContents walkFile.Comments =
          some (funcBody, funcBody, []) ∧
        calculateLines asciiTables zeroStats 1 declA.toFuncDecl walkContents walkFile.Comments
          [] = some st ∧
        st.Get Len = st.Get TotalLen ∧ st.Get CommentLines = .ok 0 ∧
        st.Get Todos = .ok (countTodos asciiTables [[]]).1 ∧
        st.Get TodosCaseinsensitive = .ok (countTodos asciiTables [[]]).2 :=
  ⟨by unfold InBounds; decide, by decide,
    calculateLines_of_none_contained asciiTables zeroStats 1 declA.toFuncDecl walkContents
      walkFile.Comments [] (by unfold InBounds; decide) (by decide)⟩

/-- The record `Visit` builds for a function declaration carries the length of
the comment list of the file as `Comments`. -/
theorem visitFuncDecl_comments (E : Env) (v : Visitor) (fn : FuncDeclNode) (st : FunctionStats)
    (h : visitFuncDecl E v fn = some st) : st.Get Comments = .ok v.file.Comments.length := by
  unfold visitFuncDecl at h
  obtain ⟨st₀, h₀, rfl⟩ := Option.map_eq_some'.1 h
  obtain ⟨b, w, o, -, rfl⟩ := calculateLines_eq_some_iff.1 h₀
  unfold calculateVariables calculateNesting calculateComplexity
  rw [get_set_of_ne _ _ _ _ (by decide), get_set_of_ne _ _ _ _ (by decide),
    get_set_of_ne _ _ _ _ (by decide)]
  exact (setMeasurements_get _ _ _ _ _ _ _).1

/-- C14: whenever `calculateLines` returns, the `Comments` measurement of the
record is the length of the whole comment list it was given; two function
declarations analysed with the same comment list therefore carry the same
value, whatever their spans and whether or not a comment lies inside them. The
record `Visit` builds for a function carries the number of comment groups of
the file. -/
theorem comments_counts_whole_file (T : UnicodeTables) (stats₁ stats₂ st₁ st₂ : FunctionStats)
    (offset₁ offset₂ : Int) (fn₁ fn₂ : FuncDecl) (contents₁ contents₂ : Str)
    (comments : List CommentGroup) (docs₁ docs₂ : Str)
    (h₁ : calculateLines T stats₁ offset₁ fn₁ contents₁ comments docs₁ = some st₁)
    (h₂ : calculateLines T stats₂ offset₂ fn₂ contents₂ comments docs₂ = some st₂) :
    st₁.Get Comments = .ok comments.length ∧ st₂.Get Comments = .ok comments.length ∧
      st₁.Get Comments = st₂.Get Comments ∧
      ∀ (E : Env) (v : Visitor) (fn : FuncDeclNode) (st : FunctionStats),
        visitFuncDecl E v fn = some st → st.Get Comments = .ok v.file.Comments.length := by
  obtain ⟨b₁, w₁, o₁, -, rfl⟩ := calculateLines_eq_some_iff.1 h₁
  obtain ⟨b₂, w₂, o₂, -, rfl⟩ := calculateLines_eq_some_iff.1 h₂
  have g₁ := (setMeasurements_get T stats₁ comments docs₁ b₁ w₁ o₁).1
  have g₂ := (setMeasurements_get T stats₂ comments docs₂ b₂ w₂ o₂).1
  exact ⟨g₁, g₂, by rw [g₁, g₂], visitFuncDecl_comments⟩

/-- Witness for C14: the functions `a` and `Foo` of the file `b_test.go`, none
of which holds the one comment of the file. -/
theorem comments_counts_whole_file_witness :
    ∃ st₁ st₂,
      calculateLines asciiTables zeroStats 1 declA.toFuncDecl walkContents walkFile.Comments
        [] = some st₁ ∧
      calculateLines asciiTables zeroStats 1 declFoo.toFuncDecl walkContents walkFile.Comments
        [] = some st₂ ∧
      st₁.Get Comments = .ok 1 ∧ st₂.Get Comments = .ok 1 ∧
      st₁.Get Comments = st₂.Get Comments :=
  ⟨_, _, rfl, rfl,
    (comments_counts_whole_file asciiTables zeroStats zeroStats _ _ 1 1 declA.toFuncDecl
      declFoo.toFuncDecl walkContents walkContents walkFile.Comments [] [] rfl rfl).1,
    (comments_counts_whole_file asciiTables zeroStats zeroStats _ _ 1 1 declA.toFuncDecl
      declFoo.toFuncDecl walkContents walkContents walkFile.Comments [] [] rfl rfl).2.1,
    (comments_counts_whole_file asciiTables zeroStats zeroStats _ _ 1 1 declA.toFuncDecl
      declFoo.toFuncDecl walkContents walkContents walkFile.Comments [] [] rfl rfl).2.2.1⟩

/-- C19: with no ignore strings `countLines` returns the number of newline
bytes plus one, so the empty text has one line and the count is at least one;
with any ignore list the count is at most that number, and it does not grow
when further ignore strings are added. -/
theorem countLines_bounds :
    (∀ str : Str, countLines str [] = str.count 10 + 1) ∧
    countLines [] [] = 1 ∧
    (∀ str : Str, 1 ≤ countLines str []) ∧
    (∀ (str : Str) (ignoreLines : List Str), countLines str ignoreLines ≤ str.count 10 + 1) ∧
    (∀ (str : Str) (ignoreLines more : List Str),
      countLines str (ignoreLines ++ more) ≤ countLines str ignoreLines) := by
  refine ⟨countLines_nil, rfl, fun str => ?_, countLines_le, fun str ign more => ?_⟩
  · rw [countLines_nil]
    omega
  · rw [countLines_eq_countP, countLines_eq_countP]
    apply List.countP_mono_left
    intro line _ hline
    simp only [Bool.not_eq_true', List.contains_eq_any_beq, List.any_eq_false, beq_iff_eq,
      Bool.not_eq_eq_eq_not, Bool.not_true] at hline ⊢
    intro x hx
    apply hline x
    rw [mem_ignoreSet] at hx ⊢
    rw [List.map_append]
    exact List.mem_append_left _ hx

/-! ## The walk: lemmas and claims -/

theorem set_name (s : FunctionStats) (k : FuncMeasurement) (x : Nat) :
    (s.Set k x).Name = s.Name := rfl

theorem set_receiver (s : FunctionStats) (k : FuncMeasurement) (x : Nat) :
    (s.Set k x).Receiver = s.Receiver := rfl

theorem setMeasurements_identity (T : UnicodeTables) (stats : FunctionStats)
    (comments : List CommentGroup) (funcDocs funcBody w o : Str) :
    (setMeasurements T stats comments funcDocs funcBody w o).Name = stats.Name ∧
      (setMeasurements T stats comments funcDocs funcBody w o).Receiver = stats.Receiver := by
  simp only [setMeasurements, set_name, set_receiver, and_self]

theorem setReceiver_name (E : Env) (stats : FunctionStats) (fn : FuncDeclNode) :
    (setReceiver E stats fn).Name = stats.Name := by
  unfold setReceiver
  split
  · split <;> rfl
  · rfl

/-- The record built for a function declaration has the name of the
declaration and the receiver text set by lines 155-162. -/
theorem visitFuncDecl_identity (E : Env) (v : Visitor) (fn : FuncDeclNode) (st : FunctionStats)
    (h : visitFuncDecl E v fn = some st) :
    st.Name = fn.Name ∧
      st.Receiver =
        (setReceiver E (newFunctionStats fn.Name (v.fset.Position fn.Pos)) fn).Receiver := by
  unfold visitFuncDecl at h
  obtain ⟨st₀, h₀, rfl⟩ := Option.map_eq_some'.1 h
  obtain ⟨b, w, o, -, rfl⟩ := calculateLines_eq_some_iff.1 h₀
  simp only [calculateVariables, calculateNesting, calculateComplexity, set_name, set_receiver,
    (setMeasurements_identity _ _ _ _ _ _ _).1, (setMeasurements_identity _ _ _ _ _ _ _).2,
    setReceiver_name, and_true]
  rfl

theorem visit_funcDecl (E : Env) (v : Visitor) (fn : FuncDeclNode) (children : List Node) :
    v.Visit E (some (.FuncDecl fn children)) =
      if nameIgnored v.params fn then some v
      else (visitFuncDecl E v fn).map fun st => { v with stats := v.stats ++ [st] } := by
  unfold Visitor.Visit nameIgnored
  cases v.params.IgnoreFuncs with
  | none => simp
  | some re => simp

/-- C13: when `Visit` is called on a function declaration that is not ignored
and returns, it has appended one record whose name is the identifier of the
declaration and whose receiver field is empty when there is no receiver, is
`*T` when the type of the first receiver is the star expression of the
identifier `T`, and is `T` when it is the identifier `T`. -/
theorem visit_name_and_receiver (E : Env) (v v' : Visitor) (fn : FuncDeclNode)
    (children : List Node) (hv : v.Visit E (some (.FuncDecl fn children)) = some v')
    (hk : nameIgnored v.params fn = false) :
    ∃ st, v'.stats = v.stats ++ [st] ∧ st.Name = fn.Name ∧
      ((fn.Recv = none ∨ fn.Recv = some []) → st.Receiver = []) ∧
      (∀ (T : Str) (rest : List Field),
        fn.Recv = some (⟨.StarExpr (.Ident T)⟩ :: rest) → st.Receiver = ascii "*" ++ T) ∧
      (∀ (T : Str) (rest : List Field),
        fn.Recv = some (⟨.Ident T⟩ :: rest) → st.Receiver = T) := by
  rw [visit_funcDecl, hk] at hv
  simp only [Bool.false_eq_true, ↓reduceIte] at hv
  obtain ⟨st, hst, rfl⟩ := Option.map_eq_some'.1 hv
  obtain ⟨hname, hrecv⟩ := visitFuncDecl_identity E v fn st hst
  refine ⟨st, rfl, hname, ?_, ?_, ?_⟩
  · rintro (h | h) <;> rw [hrecv] <;> simp [setReceiver, h, newFunctionStats]
  · intro T rest h
    rw [hrecv]
    simp [setReceiver, h, sprintV]
  · intro T rest h
    rw [hrecv]
    simp [setReceiver, h, sprintV]

/-- Witness for C13: `func (p *T) Foo() {}` gives the name `Foo` and the receiver `*T`. -/
theorem visit_name_and_receiver_witness :
    ∃ v', walkVisitor.Visit sampleEnv (some (.FuncDecl declFoo [])) = some v' ∧
      ∃ st, v'.stats = walkVisitor.stats ++ [st] ∧ st.Name = ascii "Foo" ∧
        st.Receiver = ascii "*T" :=
  ⟨_, rfl,
    (visit_name_and_receiver sampleEnv walkVisitor _ declFoo [] rfl rfl).imp fun _ h =>
      ⟨h.1, h.2.1, h.2.2.2.1 (ascii "T") [] rfl⟩⟩

theorem recordsOf_update_stats (E : Env) (v : Visitor) (s : List FunctionStats)
    (fns : List FuncDeclNode) :
    recordsOf E { v with stats := s } fns = recordsOf E v fns := by
  induction fns with
  | nil => rfl
  | cons fn rest ih =>
    simp only [recordsOf, ih]
    rfl

theorem recordsOf_append (E : Env) (v : Visitor) (a b : List FuncDeclNode) :
    recordsOf E v (a ++ b) =
      (recordsOf E v a).bind fun ra => (recordsOf E v b).map fun rb => ra ++ rb := by
  induction a with
  | nil => simp [recordsOf]
  | cons fn rest ih =>
    rw [List.cons_append, recordsOf, recordsOf, ih]
    cases visitFuncDecl E v fn with
    | none => rfl
    | some st =>
      cases recordsOf E v rest with
      | none => rfl
      | some ra =>
        cases recordsOf E v b with
        | none => rfl
        | some rb => rfl

mutual
/-- The walk of a tree appends the records of its function declarations that
are not ignored, in source order, and changes nothing else of the visitor. -/
theorem walk_eq (E : Env) : ∀ (v : Visitor) (n : Node),
    Walk E v n =
      (recordsOf E v ((funcDecls n).filter fun fn => !nameIgnored v.params fn)).map
        fun recs => { v with stats := v.stats ++ recs }
  | v, .Other children => by
    rw [Walk, funcDecls]
    simp only [Visitor.Visit, Option.some_bind]
    rw [walkList_eq E v children]
    cases recordsOf E v ((funcDeclsList children).filter fun fn => !nameIgnored v.params fn) with
    | none => rfl
    | some recs => rfl
  | v, .FuncDecl fn children => by
    rw [Walk, funcDecls, visit_funcDecl]
    by_cases hk : nameIgnored v.params fn = true
    · simp only [hk, ↓reduceIte, Option.some_bind, List.filter_cons, Bool.not_true,
        Bool.false_eq_true]
      rw [walkList_eq E v children]
      cases recordsOf E v
          ((funcDeclsList children).filter fun fn => !nameIgnored v.params fn) with
      | none => rfl
      | some recs => rfl
    · simp only [Bool.not_eq_true] at hk
      simp only [hk, Bool.false_eq_true, ↓reduceIte, List.filter_cons, Bool.not_false,
        recordsOf]
      cases hst : visitFuncDecl E v fn with
      | none => rfl
      | some st =>
        simp only [Option.map_some', Option.some_bind]
        rw [walkList_eq E _ children, recordsOf_update_stats]
        cases recordsOf E v
            ((funcDeclsList children).filter fun fn => !nameIgnored v.params fn) with
        | none => rfl
        | some recs => simp [Visitor.Visit]
/-- The walk of a list of trees, likewise. -/
theorem walkList_eq (E : Env) : ∀ (v : Visitor) (ns : List Node),
    walkList E v ns =
      (recordsOf E v ((funcDeclsList ns).filter fun fn => !nameIgnored v.params fn)).map
        fun recs => { v with stats := v.stats ++ recs }
  | v, [] => by simp [walkList, funcDeclsList, recordsOf]
  | v, n :: rest => by
    rw [walkList, funcDeclsList, List.filter_append, recordsOf_append, walk_eq E v n]
    cases recordsOf E v ((funcDecls n).filter fun fn => !nameIgnored v.params fn) with
    | none => rfl
    | some ra =>
      simp only [Option.map_some', Option.some_bind]
      rw [walkList_eq E _ rest, recordsOf_update_stats]
      cases recordsOf E v
          ((funcDeclsList rest).filter fun fn => !nameIgnored v.params fn) with
      | none => rfl
      | some rb => simp
end

theorem recordsOf_names (E : Env) (v : Visitor) (fns : List FuncDeclNode)
    (recs : List FunctionStats) (h : recordsOf E v fns = some recs) :
    recs.map (fun st => st.Name) = fns.map (fun fn => fn.Name) := by
  induction fns generalizing recs with
  | nil =>
    simp only [recordsOf, Option.some.injEq] at h
    subst h
    rfl
  | cons fn rest ih =>
    rw [recordsOf] at h
    obtain ⟨st, hst, h⟩ := Option.bind_eq_some.1 h
    obtain ⟨sts, hsts, rfl⟩ := Option.map_eq_some'.1 h
    rw [List.map_cons, List.map_cons, ih sts hsts, (visitFuncDecl_identity E v fn st hst).1]

theorem recordsOf_isSome (E : Env) (v : Visitor) (fns : List FuncDeclNode)
    (hb : ∀ fn ∈ fns, InBounds v.offset fn.toFuncDecl v.contents)
    (hs : InSourceOrder v.file.Comments) : ∃ recs, recordsOf E v fns = some recs := by
  induction fns with
  | nil => exact ⟨[], rfl⟩
  | cons fn rest ih =>
    obtain ⟨recs, hrecs⟩ := ih fun g hg => hb g (List.mem_cons_of_mem _ hg)
    obtain ⟨body, -, hsp⟩ := extractSpans_sorted v.offset fn.toFuncDecl v.contents
      v.file.Comments (hb fn (List.mem_cons_self _ _)) hs
    have hcl : ∃ st, visitFuncDecl E v fn = some st := by
      unfold visitFuncDecl
      simp only [Option.map_eq_some']
      exact ⟨_, _, calculateLines_eq_some_iff.2 ⟨_, _, _, hsp, rfl⟩, rfl⟩
    obtain ⟨st, hst⟩ := hcl
    exact ⟨st :: recs, by simp [recordsOf, hst, hrecs]⟩

/-- C15: the walk of a tree with `Visit` returns the initial records followed
by one record per function declaration of the tree whose name the filter does
not match, in source order, and fails only when building one of these records
fails. A walk that returns has added records with exactly the names of these
declarations; without a filter these are all the function declarations. The
walk returns when every function declaration has accepted positions and the
comment groups of the file are in source order. -/
theorem walk_appends_records (E : Env) (v : Visitor) (root : Node) :
    (Walk E v root).map (fun v' => v'.stats) =
        (recordsOf E v ((funcDecls root).filter fun fn => !nameIgnored v.params fn)).map
          (fun recs => v.stats ++ recs) ∧
    (∀ v', Walk E v root = some v' → ∃ recs, v'.stats = v.stats ++ recs ∧
      recs.map (fun st => st.Name) =
        ((funcDecls root).filter fun fn => !nameIgnored v.params fn).map fun fn => fn.Name) ∧
    (v.params.IgnoreFuncs = none →
      ((funcDecls root).filter fun fn => !nameIgnored v.params fn) = funcDecls root) ∧
    ((∀ fn ∈ funcDecls root, InBounds v.offset fn.toFuncDecl v.contents) →
      InSourceOrder v.file.Comments → ∃ v', Walk E v root = some v') := by
  refine ⟨?_, fun v' h => ?_, fun h => ?_, fun hb hs => ?_⟩
  · rw [walk_eq]
    cases recordsOf E v ((funcDecls root).filter fun fn => !nameIgnored v.params fn) with
    | none => rfl
    | some recs => rfl
  · rw [walk_eq] at h
    obtain ⟨recs, hrecs, rfl⟩ := Option.map_eq_some'.1 h
    exact ⟨recs, rfl, recordsOf_names E v _ recs hrecs⟩
  · simp [nameIgnored, h]
  · rw [walk_eq]
    obtain ⟨recs, hrecs⟩ := recordsOf_isSome E v
      ((funcDecls root).filter fun fn => !nameIgnored v.params fn)
      (fun fn hfn => hb fn (List.mem_filter.1 hfn).1) hs
    exact ⟨_, by rw [hrecs]; rfl⟩

/-- Witness for C15: the file `b_test.go` walked with the filter `skip` gives
the records of `a` and `Foo`, in this order. -/
theorem walk_appends_records_witness :
    ∃ v', Walk sampleEnv walkVisitor walkFile.node = some v' ∧
      ∃ recs, v'.stats = walkVisitor.stats ++ recs ∧
        recs.map (fun st => st.Name) = [ascii "a", ascii "Foo"] :=
  ⟨_, rfl, (walk_appends_records sampleEnv walkVisitor walkFile.node).2.1 _ rfl⟩

/-! ## `analyzeFile`: the claim -/

/-- C16: `analyzeFile` returns the empty list before the parser is called for a
name that does not end in `.go`, for a name the ignore pattern matches, and for
a name ending in `_test.go` when tests are not included. Every other name ending
in `.go` goes through the same parse and walk, a test file with tests included
like a file that is no test file. A file whose parse fails gives the empty list. -/
theorem analyzeFile_skips (E : Env) (params : CmdParams) (fname : Str) :
    (HasSuffix fname (ascii ".go") = false →
      analyzeFileOutcome E params fname = .skipped ∧ analyzeFile E params fname = some []) ∧
    (∀ re, params.Ignore = some re → re fname = true →
      analyzeFileOutcome E params fname = .skipped ∧ analyzeFile E params fname = some []) ∧
    (HasSuffix fname (ascii "_test.go") = true → params.IncludeTests = false →
      analyzeFileOutcome E params fname = .skipped ∧ analyzeFile E params fname = some []) ∧
    (HasSuffix fname (ascii ".go") = true →
      (∀ re, params.Ignore = some re → re fname = false) →
      (params.IncludeTests = true ∨ HasSuffix fname (ascii "_test.go") = false) →
      analyzeFileOutcome E params fname = parseAndWalk E params fname) ∧
    (E.ParseFile fname = none → parseAndWalk E params fname = .parseFailed ∧
      analyzeFile E params fname = some []) := by
  have hign : ∀ re, params.Ignore = some re → re fname = true →
      analyzeFileOutcome E params fname = .skipped := by
    intro re hre hm
    unfold analyzeFileOutcome
    simp [hre, hm]
  have hparse : E.ParseFile fname = none → parseAndWalk E params fname = .parseFailed := by
    intro h
    simp [parseAndWalk, h]
  refine ⟨fun h => ?_, fun re hre hm => ?_, fun ht hi => ?_, fun hgo hig hinc => ?_,
    fun h => ⟨hparse h, ?_⟩⟩
  · have : analyzeFileOutcome E params fname = .skipped := by
      unfold analyzeFileOutcome
      simp [h]
    exact ⟨this, by rw [analyzeFile, this]; rfl⟩
  · exact ⟨hign re hre hm, by rw [analyzeFile, hign re hre hm]; rfl⟩
  · have : analyzeFileOutcome E params fname = .skipped := by
      unfold analyzeFileOutcome
      simp [ht, hi]
    exact ⟨this, by rw [analyzeFile, this]; rfl⟩
  · unfold analyzeFileOutcome
    cases hI : params.Ignore with
    | none => rcases hinc with hinc | hinc <;> simp [hgo, hinc]
    | some re =>
      have hre := hig re hI
      rcases hinc with hinc | hinc <;> simp [hgo, hre, hinc]
  · unfold analyzeFile analyzeFileOutcome
    rw [hparse h]
    split_ifs <;> rfl

/-- Witness for C16: `a.txt` and, without tests, `b_test.go` are skipped; with
tests included `b_test.go` is parsed and walked; `c.go` fails to parse. -/
theorem analyzeFile_skips_witness :
    (analyzeFileOutcome sampleEnv plainParams (ascii "a.txt") = .skipped ∧
      analyzeFile sampleEnv plainParams (ascii "a.txt") = some []) ∧
    (analyzeFileOutcome sampleEnv plainParams (ascii "b_test.go") = .skipped ∧
      analyzeFile sampleEnv plainParams (ascii "b_test.go") = some []) ∧
    analyzeFileOutcome sampleEnv skipParams (ascii "b_test.go") =
      parseAndWalk sampleEnv skipParams (ascii "b_test.go") ∧
    (analyzeFile sampleEnv skipParams (ascii "b_test.go")).map
      (fun recs => recs.map fun st => st.Name) = some [ascii "a", ascii "Foo"] ∧
    (parseAndWalk sampleEnv skipParams (ascii "c.go") = .parseFailed ∧
      analyzeFile sampleEnv skipParams (ascii "c.go") = some []) :=
  ⟨(analyzeFile_skips sampleEnv plainParams (ascii "a.txt")).1 rfl,
    (analyzeFile_skips sampleEnv plainParams (ascii "b_test.go")).2.2.1 rfl rfl,
    (analyzeFile_skips sampleEnv skipParams (ascii "b_test.go")).2.2.2.1 rfl
      (fun _ h => by simp [skipParams] at h) (Or.inl rfl),
    rfl,
    (analyzeFile_skips sampleEnv skipParams (ascii "c.go")).2.2.2.2 rfl⟩

end GoLongFuncs
